import Mathlib

/-!
Verification of the ABI toolkit core of the `nekoton-flutter` repository
(`src/rust/src/helpers/abi/mod.rs`): the type-descriptor grammar parser,
the value/cell codec, external-message expiration headers, and the
transaction / event decoding pipeline.

Strings are modelled as `List Char`, Rust machine integers as `Nat`/`Int`
with explicit bounds, and fallible Rust functions as `Except`/`Option`.
-/

/-- Mirrors the Rust `AbiError` enum of `helpers/abi/mod.rs` (lines 847-855). -/
inductive AbiError where
  | expectedParamType
  | expectedStringOrArray
  | invalidComponents
deriving DecidableEq

/-- A parse outcome's failure side: either the Rust `AbiError`
(a `GrammarError`) or a Rust panic.  The bracket branch of
`parse_param_type` computes `count - 2` and `count - num.len() - 2` in
`usize`; on inputs such as `"]"`, or `"3]"` where the trailing all-digit
bracket group has no matching `[`, that subtraction underflows and the Rust
program panics (overflow panic in debug, wrapped index then out-of-bounds
slice panic in release) instead of returning an error.  The model keeps the
panic as an explicit outcome so it is never mistaken for a clean
`GrammarError`. -/
inductive ParseErr where
  | abi (e : AbiError)
  | panicked
deriving DecidableEq

/-- Mirrors `ton_abi::ParamType` as produced by `parse_param_type`; tuple
components are name/type pairs (`ton_abi::Param`). -/
inductive ParamType where
  | bool
  | int (n : Nat)
  | uint (n : Nat)
  | array (t : ParamType)
  | fixedarray (t : ParamType) (n : Nat)
  | map (k : ParamType) (v : ParamType)
  | tuple (components : List (String × ParamType))
  | cell
  | address
  | token
  | bytes
  | fixedbytes (n : Nat)
  | time
  | expire
  | publicKey
  | string
  | optional (t : ParamType)
  | ref (t : ParamType)

/-- Decimal value of a digit list (the accumulation performed by Rust
`usize::from_str`). -/
def digitsToNat (s : List Char) : Nat :=
  s.foldl (fun acc c => acc * 10 + (c.toNat - 48)) 0

/-- Models Rust `usize::from_str`: an optional leading `+`, then one or more
decimal digits; fails on any other character and on overflow past
`2 ^ 64 - 1` (64-bit `usize`). -/
def usize_from_str (s : List Char) : Option Nat :=
  let digits := if s.head? = some '+' then s.drop 1 else s
  if digits ≠ [] ∧ digits.all Char.isDigit ∧ digitsToNat digits < 2 ^ 64 then
    some (digitsToNat digits)
  else none

/-- Models `str::splitn(2, ',')` as used by the `map(K,V)` arm: split at the
first comma; `none` when there is no comma (the Rust code then reports
`ExpectedParamType` because `types.len() != 2`). -/
def splitn2 (s : List Char) : Option (List Char × List Char) :=
  match s.findIdx? (fun c => c == ',') with
  | none => none
  | some i => some (s.take i, s.drop (i + 1))

/-- Fuel-indexed body of the Rust `parse_param_type` (`helpers/abi/mod.rs`
lines 758-845), including the `usize`-underflow panics of the bracket
branch (see `ParseErr`).  The fuel exists only for Lean's termination
checker: every recursive call is on a strictly shorter string, so
`length + 1` fuel always suffices (see `parse_param_type_go_irrel`). -/
def parse_param_type_go : Nat → List Char → Except ParseErr ParamType
  | 0, _ => Except.error (ParseErr.abi AbiError.expectedParamType)
  | fuel + 1, kind =>
    if kind.getLast? = some ']' then
      let num := ((kind.reverse.drop 1).takeWhile (fun c => c ≠ '[')).reverse
      let count := kind.length
      if num = [] then
        if count < 2 then Except.error ParseErr.panicked
        else
          match parse_param_type_go fuel (kind.take (count - 2)) with
          | Except.ok subtype => Except.ok (ParamType.array subtype)
          | Except.error e => Except.error e
      else
        match usize_from_str num with
        | none => Except.error (ParseErr.abi AbiError.expectedParamType)
        | some len =>
          if count < num.length + 2 then Except.error ParseErr.panicked
          else
            match parse_param_type_go fuel (kind.take (count - num.length - 2)) with
            | Except.ok subtype => Except.ok (ParamType.fixedarray subtype len)
            | Except.error e => Except.error e
    else if kind = "bool".data then Except.ok ParamType.bool
    else if kind = "tuple".data then Except.ok (ParamType.tuple [])
    else if "int".data.isPrefixOf kind then
      match usize_from_str (kind.drop 3) with
      | some len => Except.ok (ParamType.int len)
      | none => Except.error (ParseErr.abi AbiError.expectedParamType)
    else if "uint".data.isPrefixOf kind then
      match usize_from_str (kind.drop 4) with
      | some len => Except.ok (ParamType.uint len)
      | none => Except.error (ParseErr.abi AbiError.expectedParamType)
    else if "varint".data.isPrefixOf kind then
      match usize_from_str (kind.drop 6) with
      | some len => Except.ok (ParamType.int len)
      | none => Except.error (ParseErr.abi AbiError.expectedParamType)
    else if "varuint".data.isPrefixOf kind then
      match usize_from_str (kind.drop 7) with
      | some len => Except.ok (ParamType.uint len)
      | none => Except.error (ParseErr.abi AbiError.expectedParamType)
    else if "map(".data.isPrefixOf kind ∧ kind.getLast? = some ')' then
      match splitn2 ((kind.drop 4).dropLast) with
      | none => Except.error (ParseErr.abi AbiError.expectedParamType)
      | some (kt, vt) =>
        match parse_param_type_go fuel kt with
        | Except.error e => Except.error e
        | Except.ok keyType =>
          match parse_param_type_go fuel vt with
          | Except.error e => Except.error e
          | Except.ok valueType =>
            match keyType with
            | ParamType.int m => Except.ok (ParamType.map (ParamType.int m) valueType)
            | ParamType.uint m => Except.ok (ParamType.map (ParamType.uint m) valueType)
            | ParamType.address => Except.ok (ParamType.map ParamType.address valueType)
            | _ => Except.error (ParseErr.abi AbiError.expectedParamType)
    else if kind = "cell".data then Except.ok ParamType.cell
    else if kind = "address".data then Except.ok ParamType.address
    else if kind = "token".data ∨ kind = "gram".data then Except.ok ParamType.token
    else if kind = "bytes".data then Except.ok ParamType.bytes
    else if "fixedbytes".data.isPrefixOf kind then
      match usize_from_str (kind.drop 10) with
      | some len => Except.ok (ParamType.fixedbytes len)
      | none => Except.error (ParseErr.abi AbiError.expectedParamType)
    else if kind = "time".data then Except.ok ParamType.time
    else if kind = "expire".data then Except.ok ParamType.expire
    else if kind = "pubkey".data then Except.ok ParamType.publicKey
    else if kind = "string".data then Except.ok ParamType.string
    else if "optional(".data.isPrefixOf kind ∧ kind.getLast? = some ')' then
      match parse_param_type_go fuel ((kind.drop 9).dropLast) with
      | Except.ok inner => Except.ok (ParamType.optional inner)
      | Except.error e => Except.error e
    else if "ref(".data.isPrefixOf kind ∧ kind.getLast? = some ')' then
      match parse_param_type_go fuel ((kind.drop 4).dropLast) with
      | Except.ok inner => Except.ok (ParamType.ref inner)
      | Except.error e => Except.error e
    else Except.error (ParseErr.abi AbiError.expectedParamType)

/-- The Rust `parse_param_type` (`helpers/abi/mod.rs` lines 758-845) on a
descriptor given as a character list. -/
def parse_param_type (kind : List Char) : Except ParseErr ParamType :=
  parse_param_type_go (kind.length + 1) kind

/-- Both pieces produced by `splitn2` are no longer than the input. -/
theorem splitn2_length {s kt vt : List Char} (h : splitn2 s = some (kt, vt)) :
    kt.length ≤ s.length ∧ vt.length ≤ s.length := by
  unfold splitn2 at h
  cases hf : s.findIdx? (fun c => c == ',') with
  | none => rw [hf] at h; cases h
  | some i =>
    rw [hf] at h
    simp only [Option.some.injEq, Prod.mk.injEq] at h
    obtain ⟨rfl, rfl⟩ := h
    constructor
    · simp [List.length_take]
    · simp [List.length_drop]

/-- The fuel parameter of `parse_param_type_go` is irrelevant once it exceeds
the string length: every recursive call is on a strictly shorter string. -/
theorem parse_param_type_go_irrel :
    ∀ (n : Nat) (s : List Char), s.length ≤ n → ∀ (f₁ f₂ : Nat),
      s.length < f₁ → s.length < f₂ →
      parse_param_type_go f₁ s = parse_param_type_go f₂ s := by
  intro n
  induction n with
  | zero =>
    intro s hs f₁ f₂ h₁ h₂
    have hs0 : s = [] := List.length_eq_zero.mp (Nat.le_zero.mp hs)
    subst hs0
    obtain ⟨a, rfl⟩ : ∃ a, f₁ = a + 1 := ⟨f₁ - 1, by omega⟩
    obtain ⟨b, rfl⟩ : ∃ b, f₂ = b + 1 := ⟨f₂ - 1, by omega⟩
    rfl
  | succ n ih =>
    intro s hs f₁ f₂ h₁ h₂
    obtain ⟨a, rfl⟩ : ∃ a, f₁ = a + 1 := ⟨f₁ - 1, by omega⟩
    obtain ⟨b, rfl⟩ : ∃ b, f₂ = b + 1 := ⟨f₂ - 1, by omega⟩
    by_cases hnil : s = []
    · subst hnil; rfl
    have hpos : 0 < s.length := List.length_pos.mpr hnil
    have hsa : s.length ≤ a := by omega
    have hsb : s.length ≤ b := by omega
    have e1 := ih (s.take (s.length - 2))
      (by simp [List.length_take]; omega) a b
      (by simp [List.length_take]; omega) (by simp [List.length_take]; omega)
    have e2 := ih
      (s.take (s.length - (((s.reverse.drop 1).takeWhile (fun c => c ≠ '[')).reverse).length - 2))
      (by simp [List.length_take]; omega) a b
      (by simp [List.length_take]; omega) (by simp [List.length_take]; omega)
    have e3 := ih ((s.drop 9).dropLast)
      (by simp [List.length_dropLast, List.length_drop]; omega) a b
      (by simp [List.length_dropLast, List.length_drop]; omega)
      (by simp [List.length_dropLast, List.length_drop]; omega)
    have e4 := ih ((s.drop 4).dropLast)
      (by simp [List.length_dropLast, List.length_drop]; omega) a b
      (by simp [List.length_dropLast, List.length_drop]; omega)
      (by simp [List.length_dropLast, List.length_drop]; omega)
    simp only [parse_param_type_go]
    simp only [e1, e2, e3, e4]
    rcases hsp : splitn2 ((s.drop 4).dropLast) with _ | ⟨kt, vt⟩
    · rfl
    · obtain ⟨hk, hv⟩ := splitn2_length hsp
      have hdl : ((s.drop 4).dropLast).length = s.length - 4 - 1 := by
        simp [List.length_dropLast, List.length_drop]
      have ekt := ih kt (by omega) a b (by omega) (by omega)
      have evt := ih vt (by omega) a b (by omega) (by omega)
      simp only [ekt, evt]

/-- `usize::from_str` succeeds on a nonempty all-digit string whose value
fits in 64 bits, returning its decimal value. -/
theorem usize_from_str_digits {ds : List Char} (hne : ds ≠ [])
    (hdig : ds.all Char.isDigit = true) (hlt : digitsToNat ds < 2 ^ 64) :
    usize_from_str ds = some (digitsToNat ds) := by
  rcases ds with _ | ⟨c, rest⟩
  · exact absurd rfl hne
  have hc : c.isDigit = true := by
    simp only [List.all_cons, Bool.and_eq_true] at hdig
    exact hdig.1
  have hcp : ¬((c :: rest).head? = some '+') := by
    intro h
    have hcplus : c = '+' := by simpa using h
    rw [hcplus] at hc
    simp at hc
  simp only [usize_from_str]
  rw [if_neg hcp, if_pos ⟨List.cons_ne_nil c rest, hdig, hlt⟩]

/-- A string ending in a digit does not end in `']'`. -/
theorem append_digits_getLast_ne_rbracket (pre : List Char) {ds : List Char}
    (hne : ds ≠ []) (hdig : ds.all Char.isDigit = true) :
    ¬((pre ++ ds).getLast? = some ']') := by
  intro h
  rw [List.getLast?_append_of_ne_nil pre hne] at h
  have hmem : ds.getLast hne ∈ ds := List.getLast_mem hne
  have hlast : ds.getLast? = some (ds.getLast hne) := List.getLast?_eq_getLast ds hne
  rw [hlast] at h
  have hbr : ds.getLast hne = ']' := by simpa using h
  have := List.all_eq_true.mp hdig _ hmem
  rw [hbr] at this
  simp at this

/-- Claim C3: the type-descriptor parser maps `uint128` to `Uint(128)`,
`int8[]` to `Array(Int(8))`, `uint8[][3]` to
`FixedArray(Array(Uint(8)),3)` — trailing bracket groups parsed
right-to-left, `T[]` versus `T[N]` decided by whether the text between the
trailing brackets is empty or all-digits — and `map(address,uint32)` to
`Map(Address,Uint(32))`. -/
theorem claim_c3_parse_param_type_examples :
    parse_param_type "uint128".data = Except.ok (ParamType.uint 128)
    ∧ parse_param_type "int8[]".data = Except.ok (ParamType.array (ParamType.int 8))
    ∧ parse_param_type "uint8[][3]".data
        = Except.ok (ParamType.fixedarray (ParamType.array (ParamType.uint 8)) 3)
    ∧ parse_param_type "map(address,uint32)".data
        = Except.ok (ParamType.map ParamType.address (ParamType.uint 32)) :=
  ⟨rfl, rfl, rfl, rfl⟩

/-- Character-list forms of the keyword literals of `parse_param_type_go`. -/
theorem strData_bool : "bool".data = ['b', 'o', 'o', 'l'] := rfl

theorem strData_tuple : "tuple".data = ['t', 'u', 'p', 'l', 'e'] := rfl

theorem strData_int : "int".data = ['i', 'n', 't'] := rfl

theorem strData_uint : "uint".data = ['u', 'i', 'n', 't'] := rfl

theorem strData_varint : "varint".data = ['v', 'a', 'r', 'i', 'n', 't'] := rfl

theorem strData_varuint : "varuint".data = ['v', 'a', 'r', 'u', 'i', 'n', 't'] := rfl

theorem strData_mapParen : "map(".data = ['m', 'a', 'p', '('] := rfl

/-- Claim C9: for every width `N`, written as its nonempty list of decimal
digits `ds` with value below `2 ^ 64`, `varint<N>` parses to the same
internal representation as `int<N>` — namely `Int(N)` — and `varuint<N>`
parses to the same internal representation as `uint<N>` — namely
`Uint(N)`. -/
theorem claim_c9_varint_collapses_to_int (ds : List Char) (hne : ds ≠ [])
    (hdig : ds.all Char.isDigit = true) (hlt : digitsToNat ds < 2 ^ 64) :
    parse_param_type ("varint".data ++ ds) = Except.ok (ParamType.int (digitsToNat ds))
    ∧ parse_param_type ("int".data ++ ds) = Except.ok (ParamType.int (digitsToNat ds))
    ∧ parse_param_type ("varuint".data ++ ds) = Except.ok (ParamType.uint (digitsToNat ds))
    ∧ parse_param_type ("uint".data ++ ds) = Except.ok (ParamType.uint (digitsToNat ds)) := by
  have husz := usize_from_str_digits hne hdig hlt
  refine ⟨?_, ?_, ?_, ?_⟩
  · rw [parse_param_type, parse_param_type_go.eq_2]
    rw [if_neg (append_digits_getLast_ne_rbracket "varint".data hne hdig)]
    simp only [strData_bool, strData_tuple, strData_int, strData_uint, strData_varint,
      strData_varuint, strData_mapParen, List.cons_append, List.nil_append]
    simp [List.isPrefixOf, husz, show ('v' :: 'a' :: 'r' :: 'i' :: 'n' :: 't' :: ds).drop 6 = ds from rfl]
  · rw [parse_param_type, parse_param_type_go.eq_2]
    rw [if_neg (append_digits_getLast_ne_rbracket "int".data hne hdig)]
    simp only [strData_bool, strData_tuple, strData_int, strData_uint, strData_varint,
      strData_varuint, strData_mapParen, List.cons_append, List.nil_append]
    simp [List.isPrefixOf, husz, show ('i' :: 'n' :: 't' :: ds).drop 3 = ds from rfl]
  · rw [parse_param_type, parse_param_type_go.eq_2]
    rw [if_neg (append_digits_getLast_ne_rbracket "varuint".data hne hdig)]
    simp only [strData_bool, strData_tuple, strData_int, strData_uint, strData_varint,
      strData_varuint, strData_mapParen, List.cons_append, List.nil_append]
    simp [List.isPrefixOf, husz,
      show ('v' :: 'a' :: 'r' :: 'u' :: 'i' :: 'n' :: 't' :: ds).drop 7 = ds from rfl]
  · rw [parse_param_type, parse_param_type_go.eq_2]
    rw [if_neg (append_digits_getLast_ne_rbracket "uint".data hne hdig)]
    simp only [strData_bool, strData_tuple, strData_int, strData_uint, strData_varint,
      strData_varuint, strData_mapParen, List.cons_append, List.nil_append]
    simp [List.isPrefixOf, husz, show ('u' :: 'i' :: 'n' :: 't' :: ds).drop 4 = ds from rfl]

/-- `splitn2` splits exactly at an inserted comma when the first piece is
comma-free. -/
theorem splitn2_append_comma (k v : List Char) (hk : ',' ∉ k) :
    splitn2 (k ++ ',' :: v) = some (k, v) := by
  have hidx : ∀ (k' : List Char) (i : Nat), ',' ∉ k' →
      (k' ++ ',' :: v).findIdx? (fun c => c == ',') i = some (i + k'.length) := by
    intro k'
    induction k' with
    | nil => intro i _; simp [List.findIdx?_cons]
    | cons c rest ih =>
      intro i hnc
      have hc : ¬((c == ',') = true) := by
        simp only [beq_iff_eq]
        intro h
        exact hnc (by simp [h])
      rw [List.cons_append, List.findIdx?_cons, if_neg hc,
        ih (i + 1) (fun hm => hnc (List.mem_cons_of_mem _ hm))]
      simp only [List.length_cons, Option.some.injEq]
      omega
  unfold splitn2
  rw [hidx k 0 hk]
  simp only [Nat.zero_add]
  have ht : (k ++ ',' :: v).take k.length = k := List.take_left k (',' :: v)
  have hd : (k ++ ',' :: v).drop (k.length + 1) = v := by
    rw [show k ++ ',' :: v = (k ++ [',']) ++ v by simp]
    exact List.drop_left' (by simp)
  rw [ht, hd]

/-- The key kinds accepted by the `map(K,V)` arm of `parse_param_type`. -/
def isAllowedMapKey : ParamType → Bool
  | ParamType.int _ => true
  | ParamType.uint _ => true
  | ParamType.address => true
  | _ => false

/-- Claim C7: for a comma-free key descriptor `K` and a value descriptor `V`
that parses, `map(K,V)` parses — producing `Map(K,V)` — exactly when `K`
parses to one of `Int`, `Uint`, `Address`; a key parsing to any other kind
yields `GrammarError` (`ExpectedParamType`), and in particular
`map(cell,uint32)` fails with that error.  A key whose own parse fails —
including the bracket-branch underflow panic, see
`parse_param_type_bracket_panics` — propagates that failure unchanged, so
those keys never reach the kind check. -/
theorem claim_c7_map_key_restriction (k v : List Char) (hk : ',' ∉ k)
    (tv : ParamType) (hv : parse_param_type v = Except.ok tv) :
    (parse_param_type ("map(".data ++ k ++ [','] ++ v ++ [')'])
      = match parse_param_type k with
        | Except.ok kt =>
            if isAllowedMapKey kt then Except.ok (ParamType.map kt tv)
            else Except.error (ParseErr.abi AbiError.expectedParamType)
        | Except.error e => Except.error e)
    ∧ (∀ kt, parse_param_type k = Except.ok kt →
        (parse_param_type ("map(".data ++ k ++ [','] ++ v ++ [')'])
            = Except.ok (ParamType.map kt tv) ↔ isAllowedMapKey kt = true))
    ∧ (∀ kt, parse_param_type k = Except.ok kt → isAllowedMapKey kt = false →
        parse_param_type ("map(".data ++ k ++ [','] ++ v ++ [')'])
          = Except.error (ParseErr.abi AbiError.expectedParamType))
    ∧ parse_param_type "map(cell,uint32)".data
        = Except.error (ParseErr.abi AbiError.expectedParamType) := by
  have hmain : parse_param_type ("map(".data ++ k ++ [','] ++ v ++ [')'])
      = match parse_param_type k with
        | Except.ok kt =>
            if isAllowedMapKey kt then Except.ok (ParamType.map kt tv)
            else Except.error (ParseErr.abi AbiError.expectedParamType)
        | Except.error e => Except.error e := ?_
  case _ =>
    refine ⟨hmain, ?_, ?_, rfl⟩
    · intro kt hkt
      rw [hmain, hkt]
      show (if isAllowedMapKey kt then Except.ok (ParamType.map kt tv)
          else Except.error (ParseErr.abi AbiError.expectedParamType))
          = Except.ok (ParamType.map kt tv) ↔ isAllowedMapKey kt = true
      cases hall : isAllowedMapKey kt <;> simp
    · intro kt hkt hall
      rw [hmain, hkt]
      show (if isAllowedMapKey kt then Except.ok (ParamType.map kt tv)
          else Except.error (ParseErr.abi AbiError.expectedParamType))
          = Except.error (ParseErr.abi AbiError.expectedParamType)
      simp [hall]
  have hlast : ("map(".data ++ k ++ [','] ++ v ++ [')']).getLast? = some ')' := by
    rw [List.getLast?_append_of_ne_nil _ (List.cons_ne_nil ')' [])]
    rfl
  simp only [parse_param_type]
  rw [parse_param_type_go.eq_2, hlast]
  rw [if_neg (show ¬(some ')' = some ']') by decide)]
  simp only [strData_bool, strData_tuple, strData_int, strData_uint, strData_varint,
    strData_varuint, strData_mapParen, List.cons_append, List.nil_append]
  simp only [List.isPrefixOf, List.append_assoc, List.singleton_append]
  simp only [show (('i' == 'm' && ('n' == 'a' && ('t' == 'p' && true))) = true) = False by decide,
    show (('u' == 'm' && ('i' == 'a' && ('n' == 'p' && ('t' == '(' && true)))) = true) = False
      by decide,
    show ('m' == 'm' && ('a' == 'a' && ('p' == 'p' && ('(' == '(' && true)))) = true from rfl,
    if_false, and_true, if_true]
  simp only [show ('v' == 'm') = false from rfl, Bool.false_and,
    show ((false : Bool) = true) = False by decide, if_false]
  rw [show List.drop 4 ('m' :: 'a' :: 'p' :: '(' :: (k ++ (',' :: v ++ [')'])))
      = k ++ (',' :: (v ++ [')'])) from rfl]
  rw [show k ++ (',' :: (v ++ [')'])) = ((k ++ [',']) ++ v) ++ [')'] by simp]
  rw [List.dropLast_concat]
  rw [show (k ++ [',']) ++ v = k ++ ',' :: v by simp]
  rw [splitn2_append_comma k v hk]
  have egk := parse_param_type_go_irrel k.length k le_rfl
    (('m' :: 'a' :: 'p' :: '(' :: (k ++ (',' :: v ++ [')']))).length) (k.length + 1)
    (by simp; omega) (by omega)
  have egv := parse_param_type_go_irrel v.length v le_rfl
    (('m' :: 'a' :: 'p' :: '(' :: (k ++ (',' :: v ++ [')']))).length) (v.length + 1)
    (by simp; omega) (by omega)
  rw [parse_param_type] at hv
  simp only [egk, egv, hv]
  cases hpk : parse_param_type_go (k.length + 1) k with
  | error e => rfl
  | ok kt => cases kt <;> rfl

/-- Witness for C7: `map(uint32,bool)` has an allowed key kind and parses to
`Map(Uint(32),Bool)`. -/
theorem claim_c7_witness :
    parse_param_type ("map(".data ++ "uint32".data ++ [','] ++ "bool".data ++ [')'])
      = Except.ok (ParamType.map (ParamType.uint 32) ParamType.bool) := by
  have h := claim_c7_map_key_restriction "uint32".data "bool".data (by decide)
    ParamType.bool rfl
  exact h.1

/-- The bracket branch of the Rust `parse_param_type` panics — it does not
return a `GrammarError` — on descriptors whose trailing bracket group has no
matching `[`: for `"]"` the slice index `count - 2` underflows, and for
`"3]"` the digits parse first and then `count - num.len() - 2` underflows.
The panic propagates through enclosing descriptors such as `map(3],bool)`,
which therefore also aborts rather than failing cleanly. -/
theorem parse_param_type_bracket_panics :
    parse_param_type [']'] = Except.error ParseErr.panicked
    ∧ parse_param_type ['3', ']'] = Except.error ParseErr.panicked
    ∧ parse_param_type ("map(".data ++ ['3', ']'] ++ [','] ++ "bool".data ++ [')'])
        = Except.error ParseErr.panicked :=
  ⟨rfl, rfl, rfl⟩

/-! ## Expiration headers (claim C1)

`nt_create_external_message_without_signature` (`helpers/abi/mod.rs` lines
193-274) reads the local wall clock directly — `SystemTime::now()` at lines
228-231 — and feeds that reading to `ExpireAt::new_from_millis`, while
`nt_create_external_message` (lines 277-352) passes the shared `CLOCK` to
nekoton's `make_labs_unsigned_message`, which reads `clock.now_ms_u64()`.
Each construction is therefore modelled as a function of the two millisecond
clock readings available during the call, so that dependence on either
source is expressible. -/

/-- Modelled from the spec: the `expireAt = referenceTime + timeoutSeconds`
computation (nekoton's `Expiration::Timeout(timeout).timestamp_from_millis`,
used by `ExpireAt::new_from_millis`; the nekoton crate is a dependency whose
source is not under `src/`).  The reference time in seconds is
`timeMillis / 1000`, and the result is a `u32`. -/
def expire_timestamp_from_millis (timeout timeMillis : Nat) : Nat :=
  ((timeMillis / 1000) % 2 ^ 32 + timeout) % 2 ^ 32

/-- The message header fields relevant to expiration: the `time`, `expire`
and `pubkey` header tokens (lines 235-242). -/
structure ExternalMessageHeader where
  time : Nat
  expire : Nat
  pubkey : Option Nat

/-- The header built by `nt_create_external_message_without_signature`
(lines 228-242): `time` is the locally-read wall clock
(`SystemTime::now()`), `expire` comes from `ExpireAt::new_from_millis` on
that same reading, and the public-key header is the absent placeholder. -/
def nt_create_external_message_without_signature
    (wallClockNowMillis sharedClockNowMillis timeout : Nat) : ExternalMessageHeader :=
  { time := wallClockNowMillis
    expire := expire_timestamp_from_millis timeout wallClockNowMillis
    pubkey := none }

/-- Modelled from the spec: the header built by `nt_create_external_message`
(lines 327-335) through nekoton's `make_labs_unsigned_message`, which reads
its time from the shared clock (`CLOCK.as_ref()`) handed to it and computes
the same expire formula; the public-key header carries the caller's key. -/
def nt_create_external_message
    (wallClockNowMillis sharedClockNowMillis timeout publicKey : Nat) :
    ExternalMessageHeader :=
  { time := sharedClockNowMillis
    expire := expire_timestamp_from_millis timeout sharedClockNowMillis
    pubkey := some publicKey }

/-- Counterexample to claim C1 as stated: with the shared clock at
`2000000` ms, the locally-read wall clock at `1000000` ms and timeout `60`,
the two construction paths produce different `expire` values (`1060` versus
`2060`): `nt_create_external_message_without_signature` derives its header
from the locally-read wall clock, not from the single shared clock source. -/
theorem claim_c1_counterexample :
    (nt_create_external_message_without_signature 1000000 2000000 60).expire = 1060
    ∧ (nt_create_external_message 1000000 2000000 60 0).expire = 2060
    ∧ (nt_create_external_message_without_signature 1000000 2000000 60).expire
        ≠ (nt_create_external_message 1000000 2000000 60 0).expire :=
  ⟨rfl, rfl, by decide⟩

/-- Claim C1 (amended): each construction computes
`expire = millis / 1000 + timeout` (mod `2^32`) from the millisecond reading
it takes — `nt_create_external_message` from the shared clock,
`nt_create_external_message_without_signature` from the locally-read wall
clock — so absent 32-bit wraparound `expire = T + t` holds with `T` the
respective clock's seconds count, and the two paths agree exactly when the
two readings coincide. -/
theorem claim_c1_expire_formula (wall shared timeout publicKey : Nat)
    (hshared : shared / 1000 + timeout < 2 ^ 32)
    (hwall : wall / 1000 + timeout < 2 ^ 32) :
    (nt_create_external_message wall shared timeout publicKey).expire
      = shared / 1000 + timeout
    ∧ (nt_create_external_message_without_signature wall shared timeout).expire
      = wall / 1000 + timeout
    ∧ (wall = shared →
        (nt_create_external_message_without_signature wall shared timeout).expire
          = (nt_create_external_message wall shared timeout publicKey).expire) := by
  refine ⟨?_, ?_, ?_⟩
  · show ((shared / 1000) % 2 ^ 32 + timeout) % 2 ^ 32 = shared / 1000 + timeout
    rw [Nat.mod_eq_of_lt (by omega)]
    omega
  · show ((wall / 1000) % 2 ^ 32 + timeout) % 2 ^ 32 = wall / 1000 + timeout
    rw [Nat.mod_eq_of_lt (by omega)]
    omega
  · intro h
    subst h
    rfl

/-- Witness for the amended C1 at wall = shared = 5000 ms, timeout 60. -/
theorem claim_c1_witness :
    (nt_create_external_message 5000 5000 60 0).expire = 65
    ∧ (nt_create_external_message_without_signature 5000 5000 60).expire = 65 := by
  have h := claim_c1_expire_formula 5000 5000 60 0 (by decide) (by decide)
  exact ⟨h.1, h.2.1⟩

/-! ## Transaction decoding (claims C4, C6, C8) and event scanning (C5, C10)

`nt_decode_transaction` (lines 511-579) and `nt_decode_transaction_events`
(lines 581-635) combine logic of `src/` — decode direction, the absent
inbound-body check, outbound-message selection, result assembly — with
calls into the nekoton dependency (`guess_method_by_input`, `decode_input`,
`make_abi_tokens`, `process_raw_outputs`, `read_function_id`,
`event_by_id`).  The dependency calls are taken as parameters
(`DecodeDeps`, `EventDeps`); the `src/` logic is embedded literally.  Type
parameters: `α` addresses, `β` message bodies, `μ` the parsed method-name
argument, `φ` matched functions/events, `ι` token lists, `τ` serialized
token data. -/

/-- One transaction message as consumed by the decoders: optional source,
optional destination, optional body (nekoton's `core::models::Message`). -/
structure TxMessage (α β : Type) where
  src : Option α
  dst : Option α
  body : Option β

/-- A transaction record: inbound message plus ordered outbound messages. -/
structure Transaction (α β : Type) where
  in_msg : TxMessage α β
  out_msgs : List (TxMessage α β)

/-- Rust's `Iterator::collect::<Result<Vec<_>, _>>`: the first error wins,
otherwise the successes in order. -/
def collectResults {β : Type} : List (Except String β) → Except String (List β)
  | [] => Except.ok []
  | Except.error e :: _ => Except.error e
  | Except.ok b :: rest =>
    match collectResults rest with
    | Except.ok bs => Except.ok (b :: bs)
    | Except.error e => Except.error e

/-- Lines 547-560 (and identically lines 593-606): keep destination-less
outbound messages, where a selected message without a body yields
`Err("Expected message body")`, collected into a single `Result`. -/
def ext_out_msgs {α β : Type} (msgs : List (TxMessage α β)) : Except String (List β) :=
  collectResults (msgs.filterMap (fun e =>
    if e.dst.isSome then none
    else some (match e.body with
      | some body => Except.ok body
      | none => Except.error "Expected message body")))

/-- The nekoton calls made by `nt_decode_transaction`, taken as parameters. -/
structure DecodeDeps (β μ φ ι τ : Type) where
  guess_method_by_input : β → μ → Bool → Except String (Option φ)
  decode_input : φ → β → Bool → Except String ι
  make_abi_tokens : ι → Except String τ
  process_raw_outputs : List β → φ → Except String ι
  name : φ → String

/-- The success payload of `nt_decode_transaction` (`DecodedTransaction`). -/
structure DecodedTransaction (τ : Type) where
  method : String
  input : τ
  output : τ

/-- `nt_decode_transaction`'s `internal_fn` (lines 521-576) after input
parsing: direction from the inbound source; an absent inbound body and a
matcher miss return the null success value (`Except.ok none`);
destination-less outbound messages must carry bodies; the decoded record is
assembled from the matched function. -/
def nt_decode_transaction {α β μ φ ι τ : Type} (deps : DecodeDeps β μ φ ι τ)
    (transaction : Transaction α β) (method : μ) :
    Except String (Option (DecodedTransaction τ)) :=
  let internal := transaction.in_msg.src.isSome
  match transaction.in_msg.body with
  | none => Except.ok none
  | some in_msg_body =>
    match deps.guess_method_by_input in_msg_body method internal with
    | Except.error e => Except.error e
    | Except.ok none => Except.ok none
    | Except.ok (some f) =>
      match deps.decode_input f in_msg_body internal with
      | Except.error e => Except.error e
      | Except.ok input =>
        match deps.make_abi_tokens input with
        | Except.error e => Except.error e
        | Except.ok inputTokens =>
          match ext_out_msgs transaction.out_msgs with
          | Except.error e => Except.error e
          | Except.ok outs =>
            match deps.process_raw_outputs outs f with
            | Except.error e => Except.error e
            | Except.ok output =>
              match deps.make_abi_tokens output with
              | Except.error e => Except.error e
              | Except.ok outputTokens =>
                Except.ok (some { method := deps.name f, input := inputTokens,
                                  output := outputTokens })

/-- Claim C6: a transaction whose inbound message has no body decodes to the
null success value (`none`), not an error. -/
theorem claim_c6_absent_inbound_body {α β μ φ ι τ : Type}
    (deps : DecodeDeps β μ φ ι τ) (transaction : Transaction α β) (method : μ)
    (h : transaction.in_msg.body = none) :
    nt_decode_transaction deps transaction method = Except.ok none := by
  unfold nt_decode_transaction
  rw [h]

/-- Witness for C6 on a concrete bodiless-inbound transaction. -/
theorem claim_c6_witness :
    nt_decode_transaction
      { guess_method_by_input := fun (_ : Nat) (_ : Nat) (_ : Bool) => Except.ok (some 0),
        decode_input := fun _ _ _ => Except.ok 0,
        make_abi_tokens := fun (t : Nat) => Except.ok t,
        process_raw_outputs := fun _ _ => Except.ok 0,
        name := fun _ => "m" }
      { in_msg := { src := some 7, dst := none, body := (none : Option Nat) },
        out_msgs := ([] : List (TxMessage Nat Nat)) }
      0
    = Except.ok none :=
  claim_c6_absent_inbound_body _ _ _ rfl

/-- Destination-bearing messages contribute nothing to the selection:
filtering them away first leaves `ext_out_msgs` unchanged. -/
theorem ext_out_msgs_filter {α β : Type} (msgs : List (TxMessage α β)) :
    ext_out_msgs (msgs.filter (fun e => e.dst.isNone)) = ext_out_msgs msgs := by
  induction msgs with
  | nil => rfl
  | cons x rest ih =>
    by_cases hd : x.dst.isSome
    · have hn : x.dst.isNone = false := by
        cases hx : x.dst with
        | none => rw [hx] at hd; simp at hd
        | some a => rfl
      simp only [ext_out_msgs, List.filter_cons, hn, Bool.false_eq_true, if_false,
        List.filterMap_cons, hd, if_true] at ih ⊢
      exact ih
    · have hn : x.dst.isNone = true := by
        cases hx : x.dst with
        | none => rfl
        | some a => rw [hx] at hd; simp at hd
      have hds : x.dst.isSome = false := by
        cases hx : x.dst with
        | none => rfl
        | some a => rw [hx] at hd; simp at hd
      simp only [ext_out_msgs] at ih
      cases hb : x.body with
      | none =>
        simp [ext_out_msgs, List.filter_cons, hn, List.filterMap_cons, hds, hb,
          collectResults]
      | some bb =>
        simp [ext_out_msgs, List.filter_cons, hn, List.filterMap_cons, hds, hb,
          collectResults, ih]

/-- A destination-less outbound message without a body forces the whole
selection to the `Expected message body` error. -/
theorem ext_out_msgs_missing_body {α β : Type} {msgs : List (TxMessage α β)}
    {m : TxMessage α β} (hm : m ∈ msgs) (hdst : m.dst = none) (hbody : m.body = none) :
    ext_out_msgs msgs = Except.error "Expected message body" := by
  induction msgs with
  | nil => cases hm
  | cons x rest ih =>
    rcases List.mem_cons.mp hm with rfl | hmem
    · simp [ext_out_msgs, List.filterMap_cons, hdst, hbody, collectResults]
    · by_cases hd : x.dst.isSome
      · simp only [ext_out_msgs, List.filterMap_cons, hd, if_true] at ih ⊢
        exact ih hmem
      · have hds : x.dst.isSome = false := by
          cases hx : x.dst with
          | none => rfl
          | some a => rw [hx] at hd; simp at hd
        have := ih hmem
        simp only [ext_out_msgs] at this
        cases hx : x.body with
        | none =>
          simp [ext_out_msgs, List.filterMap_cons, hds, hx, collectResults]
        | some bb =>
          simp [ext_out_msgs, List.filterMap_cons, hds, hx, collectResults, this]

/-- Claim C4: in `nt_decode_transaction`, outbound messages bearing a
destination address are ignored (pre-filtering them away changes nothing),
and whenever the decode reaches the output-selection stage, any
destination-less outbound message lacking a body fails the whole decode with
the `Expected message body` (MalformedTransaction) error — not a silent
skip. -/
theorem claim_c4_outbound_selection {α β μ φ ι τ : Type}
    (deps : DecodeDeps β μ φ ι τ) (tx : Transaction α β) (method : μ) :
    (nt_decode_transaction deps
        { in_msg := tx.in_msg, out_msgs := tx.out_msgs.filter (fun e => e.dst.isNone) }
        method
      = nt_decode_transaction deps tx method)
    ∧ (∀ (b : β) (f : φ) (i : ι) (it : τ) (m : TxMessage α β),
        tx.in_msg.body = some b →
        deps.guess_method_by_input b method tx.in_msg.src.isSome = Except.ok (some f) →
        deps.decode_input f b tx.in_msg.src.isSome = Except.ok i →
        deps.make_abi_tokens i = Except.ok it →
        m ∈ tx.out_msgs → m.dst = none → m.body = none →
        nt_decode_transaction deps tx method = Except.error "Expected message body") := by
  constructor
  · unfold nt_decode_transaction
    simp only [ext_out_msgs_filter]
  · intro b f i it m hbody hguess hdecode htokens hmem hmdst hmbody
    unfold nt_decode_transaction
    simp only [hbody, hguess, hdecode, htokens,
      ext_out_msgs_missing_body hmem hmdst hmbody]

/-- Witness for C4: a transaction with one destination-bearing outbound
message (ignored) and one destination-less bodiless outbound message
(fails the decode). -/
theorem claim_c4_witness :
    (nt_decode_transaction
        { guess_method_by_input := fun (_ : Nat) (_ : Nat) (_ : Bool) => Except.ok (some 0),
          decode_input := fun _ _ _ => Except.ok 0,
          make_abi_tokens := fun (t : Nat) => Except.ok t,
          process_raw_outputs := fun _ _ => Except.ok 0,
          name := fun _ => "m" }
        { in_msg := { src := (none : Option Nat), dst := none, body := some 1 },
          out_msgs := List.filter (fun e => e.dst.isNone)
            [{ src := none, dst := some 9, body := some 2 },
             { src := none, dst := none, body := none }] }
        0
      = nt_decode_transaction
        { guess_method_by_input := fun (_ : Nat) (_ : Nat) (_ : Bool) => Except.ok (some 0),
          decode_input := fun _ _ _ => Except.ok 0,
          make_abi_tokens := fun (t : Nat) => Except.ok t,
          process_raw_outputs := fun _ _ => Except.ok 0,
          name := fun _ => "m" }
        { in_msg := { src := (none : Option Nat), dst := none, body := some 1 },
          out_msgs := [{ src := none, dst := some 9, body := some 2 },
                       { src := none, dst := none, body := none }] }
        0)
    ∧ nt_decode_transaction
        { guess_method_by_input := fun (_ : Nat) (_ : Nat) (_ : Bool) => Except.ok (some 0),
          decode_input := fun _ _ _ => Except.ok 0,
          make_abi_tokens := fun (t : Nat) => Except.ok t,
          process_raw_outputs := fun _ _ => Except.ok 0,
          name := fun _ => "m" }
        { in_msg := { src := (none : Option Nat), dst := none, body := some 1 },
          out_msgs := [{ src := none, dst := some 9, body := some 2 },
                       { src := none, dst := none, body := none }] }
        0
      = Except.error "Expected message body" := by
  constructor
  · exact (claim_c4_outbound_selection
      { guess_method_by_input := fun (_ : Nat) (_ : Nat) (_ : Bool) => Except.ok (some 0),
        decode_input := fun _ _ _ => Except.ok 0,
        make_abi_tokens := fun (t : Nat) => Except.ok t,
        process_raw_outputs := fun _ _ => Except.ok 0,
        name := fun _ => "m" }
      { in_msg := { src := (none : Option Nat), dst := none, body := some 1 },
        out_msgs := [{ src := none, dst := some 9, body := some 2 },
                     { src := none, dst := none, body := none }] }
      0).1
  · exact (claim_c4_outbound_selection
      { guess_method_by_input := fun (_ : Nat) (_ : Nat) (_ : Bool) => Except.ok (some 0),
        decode_input := fun _ _ _ => Except.ok 0,
        make_abi_tokens := fun (t : Nat) => Except.ok t,
        process_raw_outputs := fun _ _ => Except.ok 0,
        name := fun _ => "m" }
      { in_msg := { src := (none : Option Nat), dst := none, body := some 1 },
        out_msgs := [{ src := none, dst := some 9, body := some 2 },
                     { src := none, dst := none, body := none }] }
      0).2 1 0 0 0
      { src := none, dst := none, body := none }
      rfl rfl rfl rfl (by simp) rfl rfl
theorem claim_c9_witness :
    parse_param_type "varint128".data = Except.ok (ParamType.int 128)
    ∧ parse_param_type "int128".data = Except.ok (ParamType.int 128) := by
  have h := claim_c9_varint_collapses_to_int ['1', '2', '8'] (by decide) (by decide) (by decide)
  exact ⟨h.1, h.2.1⟩

/-- A declared function as the matcher sees it: a name and the precomputed
fixed-width input id. -/
structure FunDecl where
  name : String
  input_id : Nat

/-- Modelled from the spec: nekoton_abi's `guess_method_by_input` in
guess-in-range mode (`MethodName::GuessInRange`, produced by
`parse_method_name`, lines 713-721; the nekoton_abi crate is a dependency
whose source is not under `src/`): given the id prefix read from the
payload, compare it against each candidate's precomputed id in list order
and return the first exact match, or `none` — never an error — when no
candidate matches. -/
def guess_method_by_input_range (candidates : List FunDecl) (inputId : Nat) :
    Option FunDecl :=
  candidates.find? (fun f => f.input_id == inputId)

/-- Claim C8: the guess-in-range matcher returns the first candidate, in
list order, whose precomputed id equals the payload's id prefix; when no
candidate matches it returns an explicit `none` — never an error — and
`nt_decode_transaction` then returns the null success value. -/
theorem claim_c8_guess_in_range :
    (∀ (pre post : List FunDecl) (f : FunDecl) (inputId : Nat),
      f.input_id = inputId → (∀ g ∈ pre, g.input_id ≠ inputId) →
      guess_method_by_input_range (pre ++ f :: post) inputId = some f)
    ∧ (∀ (candidates : List FunDecl) (inputId : Nat),
      (∀ g ∈ candidates, g.input_id ≠ inputId) →
      guess_method_by_input_range candidates inputId = none)
    ∧ (∀ {α β μ φ ι τ : Type} (deps : DecodeDeps β μ φ ι τ) (tx : Transaction α β)
        (method : μ) (b : β),
        tx.in_msg.body = some b →
        deps.guess_method_by_input b method tx.in_msg.src.isSome = Except.ok none →
        nt_decode_transaction deps tx method = Except.ok none) := by
  refine ⟨?_, ?_, ?_⟩
  · intro pre post f inputId hf hpre
    induction pre with
    | nil =>
      simp [guess_method_by_input_range, List.find?_cons, hf]
    | cons g rest ih =>
      have hg : (g.input_id == inputId) = false := by
        rw [beq_eq_false_iff_ne]
        exact hpre g (List.mem_cons_self g rest)
      simp only [guess_method_by_input_range, List.cons_append, List.find?_cons, hg] at ih ⊢
      exact ih (fun x hx => hpre x (List.mem_cons_of_mem g hx))
  · intro candidates inputId hnone
    apply List.find?_eq_none.mpr
    intro x hx
    simp only [beq_iff_eq]
    exact hnone x hx
  · intro α β μ φ ι τ deps tx method b hbody hguess
    unfold nt_decode_transaction
    simp only [hbody, hguess]

/-- Witness for C8 over candidates `transfer` (id 1) and `burn` (id 2): a
payload with id 2 resolves to `burn`; a payload with id 5 resolves to an
explicit `none`, and `nt_decode_transaction` maps that miss to the null
success value. -/
theorem claim_c8_witness :
    guess_method_by_input_range
        [{ name := "transfer", input_id := 1 }, { name := "burn", input_id := 2 }] 2
      = some { name := "burn", input_id := 2 }
    ∧ guess_method_by_input_range
        [{ name := "transfer", input_id := 1 }, { name := "burn", input_id := 2 }] 5
      = none
    ∧ nt_decode_transaction
        { guess_method_by_input := fun (b : Nat) (cands : List FunDecl) (_ : Bool) =>
            Except.ok (guess_method_by_input_range cands b),
          decode_input := fun _ _ _ => Except.ok 0,
          make_abi_tokens := fun (t : Nat) => Except.ok t,
          process_raw_outputs := fun _ _ => Except.ok 0,
          name := fun f => f.name }
        { in_msg := { src := (none : Option Nat), dst := none, body := some 5 },
          out_msgs := [] }
        [{ name := "transfer", input_id := 1 }, { name := "burn", input_id := 2 }]
      = Except.ok none := by
  refine ⟨?_, ?_, ?_⟩
  · exact claim_c8_guess_in_range.1 [{ name := "transfer", input_id := 1 }] []
      { name := "burn", input_id := 2 } 2 rfl (by decide)
  · exact claim_c8_guess_in_range.2.1
      [{ name := "transfer", input_id := 1 }, { name := "burn", input_id := 2 }] 5
      (by decide)
  · exact claim_c8_guess_in_range.2.2
      { guess_method_by_input := fun (b : Nat) (cands : List FunDecl) (_ : Bool) =>
          Except.ok (guess_method_by_input_range cands b),
        decode_input := fun _ _ _ => Except.ok 0,
        make_abi_tokens := fun (t : Nat) => Except.ok t,
        process_raw_outputs := fun _ _ => Except.ok 0,
        name := fun f => f.name }
      { in_msg := { src := (none : Option Nat), dst := none, body := some 5 },
        out_msgs := [] }
      [{ name := "transfer", input_id := 1 }, { name := "burn", input_id := 2 }]
      5 rfl rfl

/-- The nekoton calls made per body by `nt_decode_transaction_events`. -/
structure EventDeps (β φ ι τ : Type) where
  read_function_id : β → Except String Nat
  event_by_id : Nat → Except String φ
  decode_input : φ → β → Except String ι
  make_abi_tokens : ι → Except String τ
  name : φ → String

/-- One element of the event list (`DecodedTransactionEvent`). -/
structure DecodedTransactionEvent (τ : Type) where
  event : String
  data : τ

/-- The per-body step of the event scan (the closure at lines 610-624):
failures of `read_function_id`, `event_by_id` and `decode_input` skip the
body (`.ok()?` returns `None`), while the `make_abi_tokens` outcome — ok or
error — is kept in the produced element. -/
def event_scan_item {β φ ι τ : Type} (deps : EventDeps β φ ι τ) (e : β) :
    Option (Except String (DecodedTransactionEvent τ)) :=
  match deps.read_function_id e with
  | Except.error _ => none
  | Except.ok id =>
    match deps.event_by_id id with
    | Except.error _ => none
    | Except.ok event =>
      match deps.decode_input event e with
      | Except.error _ => none
      | Except.ok tokens =>
        some (match deps.make_abi_tokens tokens with
          | Except.ok data => Except.ok { event := deps.name event, data := data }
          | Except.error err => Except.error err)

/-- The scan stage of `nt_decode_transaction_events` (lines 608-625):
filter-map each selected body through `event_scan_item` and collect the
results into a single `Result`. -/
def event_scan {β φ ι τ : Type} (deps : EventDeps β φ ι τ) (bodies : List β) :
    Except String (List (DecodedTransactionEvent τ)) :=
  collectResults (bodies.filterMap (event_scan_item deps))

/-- `nt_decode_transaction_events`'s `internal_fn` (lines 589-632) after
parsing: select destination-less outbound bodies — all of which must be
present — then scan them for events. -/
def nt_decode_transaction_events {α β φ ι τ : Type} (deps : EventDeps β φ ι τ)
    (transaction : Transaction α β) :
    Except String (List (DecodedTransactionEvent τ)) :=
  match ext_out_msgs transaction.out_msgs with
  | Except.error e => Except.error e
  | Except.ok bodies => event_scan deps bodies

/-- Claim C5: in the event scan, a body whose id prefix matches a declared
event undergoes a full decode attempt; if that decode fails, the body
contributes nothing and the scan of the remaining bodies is not aborted, and
a body whose id matches no declared event is silently omitted the same
way. -/
theorem claim_c5_event_scan_best_effort {β φ ι τ : Type} (deps : EventDeps β φ ι τ)
    (bs₁ bs₂ : List β) (b : β) :
    (∀ (id : Nat) (event : φ) (err : String),
        deps.read_function_id b = Except.ok id →
        deps.event_by_id id = Except.ok event →
        deps.decode_input event b = Except.error err →
        event_scan deps (bs₁ ++ b :: bs₂) = event_scan deps (bs₁ ++ bs₂))
    ∧ (∀ (id : Nat) (err : String),
        deps.read_function_id b = Except.ok id →
        deps.event_by_id id = Except.error err →
        event_scan deps (bs₁ ++ b :: bs₂) = event_scan deps (bs₁ ++ bs₂)) := by
  constructor
  · intro id event err hread hevent hdecode
    have hitem : event_scan_item deps b = none := by
      simp only [event_scan_item, hread, hevent, hdecode]
    simp [event_scan, List.filterMap_append, List.filterMap_cons, hitem]
  · intro id err hread hevent
    have hitem : event_scan_item deps b = none := by
      simp only [event_scan_item, hread, hevent]
    simp [event_scan, List.filterMap_append, List.filterMap_cons, hitem]

/-- Witness for C5: a body whose matched event fails to decode is dropped
without aborting the scan, and a body matching no event is omitted. -/
theorem claim_c5_witness :
    event_scan
        { read_function_id := fun (b : Nat) => Except.ok b,
          event_by_id := fun id => if id = 1 then Except.ok 1 else Except.error "no event",
          decode_input := fun _ b =>
            if b = 1 then Except.error "decode failed" else Except.ok 0,
          make_abi_tokens := fun (t : Nat) => Except.ok t,
          name := fun _ => "E" }
        [1, 9]
      = event_scan
        { read_function_id := fun (b : Nat) => Except.ok b,
          event_by_id := fun id => if id = 1 then Except.ok 1 else Except.error "no event",
          decode_input := fun _ b =>
            if b = 1 then Except.error "decode failed" else Except.ok 0,
          make_abi_tokens := fun (t : Nat) => Except.ok t,
          name := fun _ => "E" }
        [9] := by
  exact (claim_c5_event_scan_best_effort
    { read_function_id := fun (b : Nat) => Except.ok b,
      event_by_id := fun id => if id = 1 then Except.ok 1 else Except.error "no event",
      decode_input := fun _ b =>
        if b = 1 then Except.error "decode failed" else Except.ok 0,
      make_abi_tokens := fun (t : Nat) => Except.ok t,
      name := fun _ => "E" }
    [] [9] 1).1 1 1 "decode failed" rfl rfl rfl

/-- `collect` of successes followed by an error yields that error. -/
theorem collectResults_append_error {β : Type} (L₁ : List (Except String β)) (err : String)
    (L₂ : List (Except String β)) (h : ∀ x ∈ L₁, ∃ v, x = Except.ok v) :
    collectResults (L₁ ++ Except.error err :: L₂) = Except.error err := by
  induction L₁ with
  | nil => rfl
  | cons x rest ih =>
    obtain ⟨v, rfl⟩ := h x (List.mem_cons_self x rest)
    simp [collectResults, ih (fun y hy => h y (List.mem_cons_of_mem _ hy))]

/-- Claim C10: in `nt_decode_transaction_events`, a destination-less
outbound message without a body fails the whole call with the
`Expected message body` error — the same MalformedTransaction condition as
the full decode, not a silent omission — and a post-decode
token-serialization (`make_abi_tokens`) failure likewise aborts the whole
scan with its error. -/
theorem claim_c10_event_scan_aborts {α β φ ι τ : Type} (deps : EventDeps β φ ι τ)
    (tx : Transaction α β) :
    (∀ m ∈ tx.out_msgs, m.dst = none → m.body = none →
        nt_decode_transaction_events deps tx = Except.error "Expected message body")
    ∧ (∀ (bs₁ : List β) (b : β) (bs₂ : List β) (id : Nat) (event : φ) (tokens : ι)
          (err : String),
        ext_out_msgs tx.out_msgs = Except.ok (bs₁ ++ b :: bs₂) →
        (∀ x ∈ bs₁, ∀ e : String, event_scan_item deps x ≠ some (Except.error e)) →
        deps.read_function_id b = Except.ok id →
        deps.event_by_id id = Except.ok event →
        deps.decode_input event b = Except.ok tokens →
        deps.make_abi_tokens tokens = Except.error err →
        nt_decode_transaction_events deps tx = Except.error err) := by
  constructor
  · intro m hm hdst hbody
    unfold nt_decode_transaction_events
    rw [ext_out_msgs_missing_body hm hdst hbody]
  · intro bs₁ b bs₂ id event tokens err hok hclean hread hevent hdecode hmake
    have hitem : event_scan_item deps b = some (Except.error err) := by
      simp only [event_scan_item, hread, hevent, hdecode, hmake]
    unfold nt_decode_transaction_events
    rw [hok]
    show event_scan deps (bs₁ ++ b :: bs₂) = Except.error err
    unfold event_scan
    rw [List.filterMap_append]
    rw [show (b :: bs₂).filterMap (event_scan_item deps)
        = Except.error err :: bs₂.filterMap (event_scan_item deps) by
      rw [List.filterMap_cons, hitem]]
    apply collectResults_append_error
    intro x hx
    obtain ⟨a, ha, hax⟩ := List.mem_filterMap.mp hx
    cases x with
    | ok v => exact ⟨v, rfl⟩
    | error e => exact absurd hax (hclean a ha e)

/-- Witness for C10: one bodiless destination-less outbound message aborts
the event scan, and a `make_abi_tokens` failure aborts it too. -/
theorem claim_c10_witness :
    nt_decode_transaction_events
        { read_function_id := fun (b : Nat) => Except.ok b,
          event_by_id := fun id => Except.ok id,
          decode_input := fun _ _ => Except.ok 0,
          make_abi_tokens := fun (_ : Nat) =>
            (Except.error "cannot serialize" : Except String Nat),
          name := fun _ => "E" }
        { in_msg := { src := (none : Option Nat), dst := none, body := some 1 },
          out_msgs := [{ src := none, dst := none, body := none }] }
      = Except.error "Expected message body"
    ∧ nt_decode_transaction_events
        { read_function_id := fun (b : Nat) => Except.ok b,
          event_by_id := fun id => Except.ok id,
          decode_input := fun _ _ => Except.ok 0,
          make_abi_tokens := fun (_ : Nat) =>
            (Except.error "cannot serialize" : Except String Nat),
          name := fun _ => "E" }
        { in_msg := { src := (none : Option Nat), dst := none, body := some 1 },
          out_msgs := [{ src := none, dst := none, body := some 3 }] }
      = Except.error "cannot serialize" := by
  constructor
  · exact (claim_c10_event_scan_aborts
      { read_function_id := fun (b : Nat) => Except.ok b,
        event_by_id := fun id => Except.ok id,
        decode_input := fun _ _ => Except.ok 0,
        make_abi_tokens := fun (_ : Nat) =>
          (Except.error "cannot serialize" : Except String Nat),
        name := fun _ => "E" }
      { in_msg := { src := (none : Option Nat), dst := none, body := some 1 },
        out_msgs := [{ src := none, dst := none, body := none }] }).1
      { src := none, dst := none, body := none } (by simp) rfl rfl
  · exact (claim_c10_event_scan_aborts
      { read_function_id := fun (b : Nat) => Except.ok b,
        event_by_id := fun id => Except.ok id,
        decode_input := fun _ _ => Except.ok 0,
        make_abi_tokens := fun (_ : Nat) =>
          (Except.error "cannot serialize" : Except String Nat),
        name := fun _ => "E" }
      { in_msg := { src := (none : Option Nat), dst := none, body := some 1 },
        out_msgs := [{ src := none, dst := none, body := some 3 }] }).2
      [] 3 [] 3 3 0 "cannot serialize" rfl (by simp) rfl rfl rfl rfl


/-! ## Value/cell codec (claim C2)

`nt_pack_into_cell` (lines 657-678) and `nt_unpack_from_cell` (lines
681-707) parse a schema with `parse_params_list` and then delegate to
nekoton_abi's `pack_into_cell` / `unpack_from_cell`; the codec itself is a
dependency whose source is not under `src/`.  It is modelled from the spec
(section 4.2 and the glossary): data lives in a tree of fixed-capacity
cells — at most 1023 bits and 4 child references per cell — values are laid
out in schema order with a canonical bit width per primitive, composite
types (arrays, maps, byte strings, `cell` and `ref` values) recurse into
child cells, and a value sequence exceeding a cell's bit or reference
budget spills deterministically into a continuation child cell: the
serializer fills a cell greedily (1022 payload bits, 3 payload references —
one bit and one reference of the capacity are the canonical continuation
header), placing the remainder in a chained child cell, and the decoder
follows the chain cell whenever the current cell is exhausted.  With
`allow_partial = false` any unconsumed trailing data is a decode error. -/

/-- A tree-of-cells node: a bit string plus child references.  Capacity —
at most 1023 bits and 4 references — is the invariant `cellValid`; every
cell built by the serializer satisfies it (`chunkItems_valid`). -/
inductive Cell where
  | mk (bits : List Bool) (refs : List Cell)

def Cell.bits : Cell → List Bool
  | Cell.mk b _ => b

def Cell.refs : Cell → List Cell
  | Cell.mk _ r => r

mutual
/-- The fixed-capacity discipline of the tree-of-cells: every node holds at
most 1023 bits and at most 4 child references. -/
def cellValid : Cell → Bool
  | Cell.mk bits refs =>
    decide (bits.length ≤ 1023) && decide (refs.length ≤ 4) && cellValidAll refs
termination_by c => sizeOf c
decreasing_by all_goals (simp_wf; try omega)
def cellValidAll : List Cell → Bool
  | [] => true
  | c :: cs => cellValid c && cellValidAll cs
termination_by cs => sizeOf cs
decreasing_by all_goals (simp_wf; try omega)
end

/-- Little-endian bit encoding of a natural number in `w` bits. -/
def natToBits : Nat → Nat → List Bool
  | 0, _ => []
  | w + 1, v => (v % 2 == 1) :: natToBits w (v / 2)

/-- Value of a little-endian bit string. -/
def bitsToNat : List Bool → Nat
  | [] => 0
  | b :: bs => (if b then 1 else 0) + 2 * bitsToNat bs

theorem natToBits_length (w v : Nat) : (natToBits w v).length = w := by
  induction w generalizing v with
  | zero => rfl
  | succ w ih => simp [natToBits, ih]

theorem bitsToNat_natToBits {w v : Nat} (h : v < 2 ^ w) :
    bitsToNat (natToBits w v) = v := by
  induction w generalizing v with
  | zero =>
    simp only [natToBits, bitsToNat]
    omega
  | succ w ih =>
    have h2 : v / 2 < 2 ^ w := by
      rw [pow_succ] at h
      omega
    simp only [natToBits, bitsToNat, ih h2]
    rcases Nat.mod_two_eq_zero_or_one v with h0 | h1
    · simp [h0]
      omega
    · simp [h1]
      omega

/-- Byte-list encoding: each byte in 8 bits. -/
def encodeBytes : List Nat → List Bool
  | [] => []
  | b :: bs => natToBits 8 b ++ encodeBytes bs

/-- One item of a serialized stream, in layout order: a payload bit or a
payload child reference.  The stream is what a sequence of values lays
down; cells are cut out of it by `chunkItems`. -/
inductive Item where
  | bit (b : Bool)
  | child (c : Cell)

/-- The payload bits of a stream, in order. -/
def itemsBits : List Item → List Bool
  | [] => []
  | Item.bit b :: rest => b :: itemsBits rest
  | Item.child _ :: rest => itemsBits rest

/-- The payload references of a stream, in order. -/
def itemsRefs : List Item → List Cell
  | [] => []
  | Item.bit _ :: rest => itemsRefs rest
  | Item.child c :: rest => c :: itemsRefs rest

/-- A bit string as a stream. -/
def bitsItems (bs : List Bool) : List Item := bs.map Item.bit

/-- Greedy budgeted split: the longest stream prefix holding at most `bb`
bits and `rb` references, stopping at the first item that no longer fits,
and the remainder. -/
def chunkSplit : List Item → Nat → Nat → List Item × List Item
  | [], _, _ => ([], [])
  | Item.bit b :: rest, 0, _ => ([], Item.bit b :: rest)
  | Item.bit b :: rest, bb + 1, rb =>
      (Item.bit b :: (chunkSplit rest bb rb).1, (chunkSplit rest bb rb).2)
  | Item.child c :: rest, _, 0 => ([], Item.child c :: rest)
  | Item.child c :: rest, bb, rb + 1 =>
      (Item.child c :: (chunkSplit rest bb rb).1, (chunkSplit rest bb rb).2)

theorem chunkSplit_append : ∀ (items : List Item) (bb rb : Nat),
    (chunkSplit items bb rb).1 ++ (chunkSplit items bb rb).2 = items := by
  intro items
  induction items with
  | nil => intro bb rb; rfl
  | cons it rest ih =>
    intro bb rb
    cases it with
    | bit b =>
      cases bb with
      | zero => rfl
      | succ bb => simp only [chunkSplit, List.cons_append]; rw [ih]
    | child c =>
      cases rb with
      | zero => rfl
      | succ rb => simp only [chunkSplit, List.cons_append]; rw [ih]

theorem chunkSplit_fst_ne_nil : ∀ (items : List Item) (bb rb : Nat), items ≠ [] →
    0 < bb → 0 < rb → (chunkSplit items bb rb).1 ≠ [] := by
  intro items bb rb hne hbb hrb
  cases items with
  | nil => exact absurd rfl hne
  | cons it rest =>
    cases it with
    | bit b =>
      obtain ⟨bb', rfl⟩ : ∃ k, bb = k + 1 := ⟨bb - 1, by omega⟩
      exact List.cons_ne_nil _ _
    | child c =>
      obtain ⟨rb', rfl⟩ : ∃ k, rb = k + 1 := ⟨rb - 1, by omega⟩
      exact List.cons_ne_nil _ _

/-- The bit budget of `chunkSplit` binds: the prefix carries at most `bb`
bits. -/
theorem chunkSplit_bits_le : ∀ (items : List Item) (bb rb : Nat),
    (itemsBits (chunkSplit items bb rb).1).length ≤ bb := by
  intro items
  induction items with
  | nil => intro bb rb; simp [chunkSplit, itemsBits]
  | cons it rest ih =>
    intro bb rb
    cases it with
    | bit b =>
      cases bb with
      | zero => simp [chunkSplit, itemsBits]
      | succ bb =>
        simp only [chunkSplit, itemsBits, List.length_cons]
        have := ih bb rb
        omega
    | child c =>
      cases rb with
      | zero => simp [chunkSplit, itemsBits]
      | succ rb =>
        simp only [chunkSplit, itemsBits]
        exact ih bb rb

/-- The reference budget of `chunkSplit` binds: the prefix carries at most
`rb` references. -/
theorem chunkSplit_refs_le : ∀ (items : List Item) (bb rb : Nat),
    (itemsRefs (chunkSplit items bb rb).1).length ≤ rb := by
  intro items
  induction items with
  | nil => intro bb rb; simp [chunkSplit, itemsRefs]
  | cons it rest ih =>
    intro bb rb
    cases it with
    | bit b =>
      cases bb with
      | zero => simp [chunkSplit, itemsRefs]
      | succ bb =>
        simp only [chunkSplit, itemsRefs]
        exact ih bb rb
    | child c =>
      cases rb with
      | zero => simp [chunkSplit, itemsRefs]
      | succ rb =>
        simp only [chunkSplit, itemsRefs, List.length_cons]
        have := ih bb rb
        omega

/-- Modelled from the spec: cut a stream into a chain of fixed-capacity
cells.  Each cell takes a greedy prefix of at most 1022 payload bits and 3
payload references; a nonempty remainder spills deterministically into a
continuation child cell, marked by the leading header bit `true` and stored
as the first reference.  A final cell has header bit `false` and no
continuation reference.  Every cell so built respects the 1023-bit/4-ref
capacity (`chunkItems_valid`). -/
def chunkItems (items : List Item) : Cell :=
  if hr : (chunkSplit items 1022 3).2.isEmpty then
    Cell.mk (false :: itemsBits (chunkSplit items 1022 3).1)
      (itemsRefs (chunkSplit items 1022 3).1)
  else
    Cell.mk (true :: itemsBits (chunkSplit items 1022 3).1)
      (chunkItems (chunkSplit items 1022 3).2 :: itemsRefs (chunkSplit items 1022 3).1)
termination_by items.length
decreasing_by
  simp_wf
  have happ := chunkSplit_append items 1022 3
  have hne : items ≠ [] := by
    intro hnil
    subst hnil
    exact hr rfl
  have hne2 : (chunkSplit items 1022 3).2 ≠ [] := by
    intro h0
    rw [h0] at hr
    exact hr rfl
  have hp := chunkSplit_fst_ne_nil items 1022 3 hne (by omega) (by omega)
  have hlen : (chunkSplit items 1022 3).1.length + (chunkSplit items 1022 3).2.length
      = items.length := by
    conv_rhs => rw [← happ]
    rw [List.length_append]
  have hppos : 0 < (chunkSplit items 1022 3).1.length := List.length_pos.mpr hp
  omega

theorem chunkItems_eq (items : List Item) :
    chunkItems items
      = if (chunkSplit items 1022 3).2.isEmpty then
          Cell.mk (false :: itemsBits (chunkSplit items 1022 3).1)
            (itemsRefs (chunkSplit items 1022 3).1)
        else
          Cell.mk (true :: itemsBits (chunkSplit items 1022 3).1)
            (chunkItems (chunkSplit items 1022 3).2
              :: itemsRefs (chunkSplit items 1022 3).1) := by
  rw [chunkItems.eq_def]
  simp only [dite_eq_ite]

/-- A decoding position inside a cell chain: the unconsumed bits and
payload references of the current cell, and its continuation cell if the
header bit announced one. -/
structure ChainState where
  bits : List Bool
  refs : List Cell
  chain : Option Cell

/-- The continuation slot describing a stream remainder: absent for the
empty remainder, otherwise the chained cell holding it. -/
def chainOf : List Item → Option Cell
  | [] => none
  | it :: rest => some (chunkItems (it :: rest))

/-- Open a chained cell: read the continuation header bit; on `true` the
first reference is the continuation cell. -/
def enter (c : Cell) : Option ChainState :=
  match c.bits with
  | [] => none
  | h :: bs =>
    if h then
      match c.refs with
      | [] => none
      | chainCell :: rs => some ⟨bs, rs, some chainCell⟩
    else some ⟨bs, c.refs, none⟩

/-- Read one payload bit, following the continuation cell when the current
cell is exhausted. -/
def readBitC (st : ChainState) : Option (Bool × ChainState) :=
  match st.bits with
  | b :: bs => some (b, ⟨bs, st.refs, st.chain⟩)
  | [] =>
    match st.refs, st.chain with
    | [], some c =>
      match enter c with
      | some ⟨b :: bs, rs, ch⟩ => some (b, ⟨bs, rs, ch⟩)
      | _ => none
    | _, _ => none

/-- Read one payload reference, following the continuation cell when the
current cell is exhausted. -/
def readRefC (st : ChainState) : Option (Cell × ChainState) :=
  match st.refs with
  | r :: rs => some (r, ⟨st.bits, rs, st.chain⟩)
  | [] =>
    match st.bits, st.chain with
    | [], some c =>
      match enter c with
      | some ⟨bs, r :: rs, ch⟩ => some (r, ⟨bs, rs, ch⟩)
      | _ => none
    | _, _ => none

/-- Read `w` payload bits as a little-endian number. -/
def readBitsC : Nat → ChainState → Option (Nat × ChainState)
  | 0, st => some (0, st)
  | w + 1, st =>
    match readBitC st with
    | none => none
    | some (b, st1) =>
      match readBitsC w st1 with
      | none => none
      | some (v, st2) => some ((if b then 1 else 0) + 2 * v, st2)

/-- Read `n` bytes of 8 payload bits each. -/
def readBytesC : Nat → ChainState → Option (List Nat × ChainState)
  | 0, st => some ([], st)
  | n + 1, st =>
    match readBitsC 8 st with
    | none => none
    | some (b, st1) =>
      match readBytesC n st1 with
      | none => none
      | some (bs, st2) => some (b :: bs, st2)

mutual
inductive TokenValue where
  | bool (b : Bool)
  | int (v : Int)
  | uint (v : Nat)
  | array (elems : TokenValues)
  | map (entries : TokenPairs)
  | tuple (fields : NamedTokens)
  | cell (c : Cell)
  | address (a : Nat)
  | token (amount : Nat)
  | bytes (bs : List Nat)
  | time (v : Nat)
  | expire (v : Nat)
  | pubkey (k : Option Nat)
  | string (s : List Nat)
  | optionalNone
  | optionalSome (v : TokenValue)
  | ref (v : TokenValue)
inductive TokenValues where
  | nil
  | cons (hd : TokenValue) (tl : TokenValues)
inductive TokenPairs where
  | nil
  | cons (key : TokenValue) (value : TokenValue) (tl : TokenPairs)
inductive NamedTokens where
  | nil
  | cons (name : String) (value : TokenValue) (tl : NamedTokens)
end

def TokenValues.length : TokenValues → Nat
  | TokenValues.nil => 0
  | TokenValues.cons _ tl => tl.length + 1

def TokenPairs.length : TokenPairs → Nat
  | TokenPairs.nil => 0
  | TokenPairs.cons _ _ tl => tl.length + 1

mutual
/-- Modelled from the spec: a token tree conforms to its declared schema —
shape matches, numerics fit their declared widths, collection sizes fit the
32-bit length prefix, tuple field names follow the schema, and embedded
cell values respect the cell capacity. -/
def conforms : ParamType → TokenValue → Bool
  | ParamType.bool, TokenValue.bool _ => true
  | ParamType.int n, TokenValue.int v =>
      decide (0 < n) && decide (-(2 ^ (n - 1) : Int) ≤ v) && decide (v < (2 ^ (n - 1) : Int))
  | ParamType.uint n, TokenValue.uint v => decide (v < 2 ^ n)
  | ParamType.array t, TokenValue.array es =>
      decide (es.length < 2 ^ 32) && conformsValues t es
  | ParamType.fixedarray t n, TokenValue.array es =>
      decide (es.length = n) && conformsValues t es
  | ParamType.map k v, TokenValue.map ps =>
      decide (ps.length < 2 ^ 32) && conformsPairs k v ps
  | ParamType.tuple comps, TokenValue.tuple fs => conformsNamed comps fs
  | ParamType.cell, TokenValue.cell c => cellValid c
  | ParamType.address, TokenValue.address a => decide (a < 2 ^ 267)
  | ParamType.token, TokenValue.token a => decide (a < 2 ^ 128)
  | ParamType.bytes, TokenValue.bytes l =>
      decide (l.length < 2 ^ 32) && l.all (fun b => decide (b < 256))
  | ParamType.fixedbytes n, TokenValue.bytes l =>
      decide (l.length = n) && l.all (fun b => decide (b < 256))
  | ParamType.time, TokenValue.time v => decide (v < 2 ^ 64)
  | ParamType.expire, TokenValue.expire v => decide (v < 2 ^ 32)
  | ParamType.publicKey, TokenValue.pubkey none => true
  | ParamType.publicKey, TokenValue.pubkey (some k) => decide (k < 2 ^ 256)
  | ParamType.string, TokenValue.string l =>
      decide (l.length < 2 ^ 32) && l.all (fun b => decide (b < 256))
  | ParamType.optional _, TokenValue.optionalNone => true
  | ParamType.optional t, TokenValue.optionalSome v => conforms t v
  | ParamType.ref t, TokenValue.ref v => conforms t v
  | _, _ => false
def conformsValues : ParamType → TokenValues → Bool
  | _, TokenValues.nil => true
  | t, TokenValues.cons v vs => conforms t v && conformsValues t vs
def conformsPairs : ParamType → ParamType → TokenPairs → Bool
  | _, _, TokenPairs.nil => true
  | k, v, TokenPairs.cons kv vv tl =>
      conforms k kv && conforms v vv && conformsPairs k v tl
def conformsNamed : List (String × ParamType) → NamedTokens → Bool
  | [], NamedTokens.nil => true
  | (nm, t) :: rest, NamedTokens.cons nm2 v vs =>
      decide (nm2 = nm) && conforms t v && conformsNamed rest vs
  | _, _ => false
end

mutual
/-- Modelled from the spec: the canonical, schema-directed layout used by
the codec, as an item stream — `bool` 1 bit, `int`/`uint` their declared
width (two's complement for `int`), `address` 267 bits, `token` 128,
`time` 64, `expire` 32, `pubkey` a presence bit plus 256 bits, tuples their
fields in schema order, and every composite recursing into a child cell:
dynamic collections a 32-bit length prefix plus one reference to the
chained cells of their elements, byte strings one reference to the chained
cells of a 32-bit length prefix (absent for `fixedbytes`) plus the bytes,
`cell` its value cell as a reference, `ref` one reference to the chained
cells of the inner value.  On a value whose shape does not match the schema
the encoder yields the empty stream (unreachable under `conforms`; the real
encoder errors instead). -/
def encodeValue : ParamType → TokenValue → List Item
  | ParamType.bool, TokenValue.bool b => [Item.bit b]
  | ParamType.int n, TokenValue.int v => bitsItems (natToBits n (v % (2 ^ n : Int)).toNat)
  | ParamType.uint n, TokenValue.uint v => bitsItems (natToBits n v)
  | ParamType.array t, TokenValue.array es =>
      bitsItems (natToBits 32 es.length) ++ [Item.child (chunkItems (encodeValues t es))]
  | ParamType.fixedarray t _, TokenValue.array es =>
      [Item.child (chunkItems (encodeValues t es))]
  | ParamType.map k v, TokenValue.map ps =>
      bitsItems (natToBits 32 ps.length) ++ [Item.child (chunkItems (encodePairs k v ps))]
  | ParamType.tuple comps, TokenValue.tuple fs => encodeNamed comps fs
  | ParamType.cell, TokenValue.cell c => [Item.child c]
  | ParamType.address, TokenValue.address a => bitsItems (natToBits 267 a)
  | ParamType.token, TokenValue.token a => bitsItems (natToBits 128 a)
  | ParamType.bytes, TokenValue.bytes l =>
      [Item.child (chunkItems (bitsItems (natToBits 32 l.length ++ encodeBytes l)))]
  | ParamType.fixedbytes _, TokenValue.bytes l =>
      [Item.child (chunkItems (bitsItems (encodeBytes l)))]
  | ParamType.time, TokenValue.time v => bitsItems (natToBits 64 v)
  | ParamType.expire, TokenValue.expire v => bitsItems (natToBits 32 v)
  | ParamType.publicKey, TokenValue.pubkey none => [Item.bit false]
  | ParamType.publicKey, TokenValue.pubkey (some k) =>
      Item.bit true :: bitsItems (natToBits 256 k)
  | ParamType.string, TokenValue.string l =>
      [Item.child (chunkItems (bitsItems (natToBits 32 l.length ++ encodeBytes l)))]
  | ParamType.optional _, TokenValue.optionalNone => [Item.bit false]
  | ParamType.optional t, TokenValue.optionalSome v => Item.bit true :: encodeValue t v
  | ParamType.ref t, TokenValue.ref v => [Item.child (chunkItems (encodeValue t v))]
  | _, _ => []
def encodeValues : ParamType → TokenValues → List Item
  | _, TokenValues.nil => []
  | t, TokenValues.cons v vs => encodeValue t v ++ encodeValues t vs
def encodePairs : ParamType → ParamType → TokenPairs → List Item
  | _, _, TokenPairs.nil => []
  | k, v, TokenPairs.cons kv vv tl =>
      encodeValue k kv ++ encodeValue v vv ++ encodePairs k v tl
def encodeNamed : List (String × ParamType) → NamedTokens → List Item
  | (_, t) :: rest, NamedTokens.cons _ v vs =>
      encodeValue t v ++ encodeNamed rest vs
  | _, _ => []
end

theorem ParamType.sizeOf_pos (t : ParamType) : 0 < sizeOf t := by
  cases t <;> simp_arith

mutual
/-- Modelled from the spec: the schema-directed decoder over a cell chain,
consuming payload bits and references strictly in schema order with the
same canonical layout as `encodeValue`, descending into the continuation
cell when the current cell is exhausted (inside the readers) and into child
cells for composite values; any shortfall is a decode failure. -/
def decodeValue : ParamType → ChainState → Option (TokenValue × ChainState)
  | ParamType.bool, st =>
    match readBitC st with
    | none => none
    | some (b, st1) => some (TokenValue.bool b, st1)
  | ParamType.int n, st =>
    match readBitsC n st with
    | none => none
    | some (u, st1) =>
      some (TokenValue.int (if u < 2 ^ (n - 1) then (u : Int) else (u : Int) - 2 ^ n), st1)
  | ParamType.uint n, st =>
    match readBitsC n st with
    | none => none
    | some (u, st1) => some (TokenValue.uint u, st1)
  | ParamType.array t, st =>
    match readBitsC 32 st with
    | none => none
    | some (len, st1) =>
      match readRefC st1 with
      | none => none
      | some (c, st2) =>
        match enter c with
        | none => none
        | some inner =>
          match decodeValues t len inner with
          | none => none
          | some (es, _) => some (TokenValue.array es, st2)
  | ParamType.fixedarray t n, st =>
    match readRefC st with
    | none => none
    | some (c, st1) =>
      match enter c with
      | none => none
      | some inner =>
        match decodeValues t n inner with
        | none => none
        | some (es, _) => some (TokenValue.array es, st1)
  | ParamType.map k v, st =>
    match readBitsC 32 st with
    | none => none
    | some (len, st1) =>
      match readRefC st1 with
      | none => none
      | some (c, st2) =>
        match enter c with
        | none => none
        | some inner =>
          match decodePairs k v len inner with
          | none => none
          | some (ps, _) => some (TokenValue.map ps, st2)
  | ParamType.tuple comps, st =>
    match decodeNamed comps st with
    | none => none
    | some (fs, st1) => some (TokenValue.tuple fs, st1)
  | ParamType.cell, st =>
    match readRefC st with
    | none => none
    | some (c, st1) => some (TokenValue.cell c, st1)
  | ParamType.address, st =>
    match readBitsC 267 st with
    | none => none
    | some (a, st1) => some (TokenValue.address a, st1)
  | ParamType.token, st =>
    match readBitsC 128 st with
    | none => none
    | some (a, st1) => some (TokenValue.token a, st1)
  | ParamType.bytes, st =>
    match readRefC st with
    | none => none
    | some (c, st1) =>
      match enter c with
      | none => none
      | some inner =>
        match readBitsC 32 inner with
        | none => none
        | some (len, inner1) =>
          match readBytesC len inner1 with
          | none => none
          | some (l, _) => some (TokenValue.bytes l, st1)
  | ParamType.fixedbytes n, st =>
    match readRefC st with
    | none => none
    | some (c, st1) =>
      match enter c with
      | none => none
      | some inner =>
        match readBytesC n inner with
        | none => none
        | some (l, _) => some (TokenValue.bytes l, st1)
  | ParamType.time, st =>
    match readBitsC 64 st with
    | none => none
    | some (v, st1) => some (TokenValue.time v, st1)
  | ParamType.expire, st =>
    match readBitsC 32 st with
    | none => none
    | some (v, st1) => some (TokenValue.expire v, st1)
  | ParamType.publicKey, st =>
    match readBitC st with
    | none => none
    | some (false, st1) => some (TokenValue.pubkey none, st1)
    | some (true, st1) =>
      match readBitsC 256 st1 with
      | none => none
      | some (k, st2) => some (TokenValue.pubkey (some k), st2)
  | ParamType.string, st =>
    match readRefC st with
    | none => none
    | some (c, st1) =>
      match enter c with
      | none => none
      | some inner =>
        match readBitsC 32 inner with
        | none => none
        | some (len, inner1) =>
          match readBytesC len inner1 with
          | none => none
          | some (l, _) => some (TokenValue.string l, st1)
  | ParamType.optional t, st =>
    match readBitC st with
    | none => none
    | some (false, st1) => some (TokenValue.optionalNone, st1)
    | some (true, st1) =>
      match decodeValue t st1 with
      | none => none
      | some (v, st2) => some (TokenValue.optionalSome v, st2)
  | ParamType.ref t, st =>
    match readRefC st with
    | none => none
    | some (c, st1) =>
      match enter c with
      | none => none
      | some inner =>
        match decodeValue t inner with
        | none => none
        | some (v, _) => some (TokenValue.ref v, st1)
termination_by t st => (sizeOf t, 0)

def decodeValues : ParamType → Nat → ChainState → Option (TokenValues × ChainState)
  | _, 0, st => some (TokenValues.nil, st)
  | t, n + 1, st =>
    match decodeValue t st with
    | none => none
    | some (v, st1) =>
      match decodeValues t n st1 with
      | none => none
      | some (vs, st2) => some (TokenValues.cons v vs, st2)
termination_by t n st => (sizeOf t, n + 1)

def decodePairs : ParamType → ParamType → Nat → ChainState → Option (TokenPairs × ChainState)
  | _, _, 0, st => some (TokenPairs.nil, st)
  | k, v, n + 1, st =>
    match decodeValue k st with
    | none => none
    | some (kv, st1) =>
      match decodeValue v st1 with
      | none => none
      | some (vv, st2) =>
        match decodePairs k v n st2 with
        | none => none
        | some (tl, st3) => some (TokenPairs.cons kv vv tl, st3)
termination_by k v n st => (sizeOf k + sizeOf v, n + 1)
decreasing_by
  all_goals
    simp_wf
    first
      | (apply Prod.Lex.right
         omega)
      | (apply Prod.Lex.left
         have hk := ParamType.sizeOf_pos k
         have hv := ParamType.sizeOf_pos v
         omega)

def decodeNamed : List (String × ParamType) → ChainState → Option (NamedTokens × ChainState)
  | [], st => some (NamedTokens.nil, st)
  | (nm, t) :: rest, st =>
    match decodeValue t st with
    | none => none
    | some (v, st1) =>
      match decodeNamed rest st1 with
      | none => none
      | some (vs, st2) => some (NamedTokens.cons nm v vs, st2)
termination_by comps st => (sizeOf comps, 0)
end

/-- Two's-complement roundtrip: encoding a fitting signed value into `n`
bits and sign-extending the result recovers the value. -/
theorem int_roundtrip {n : Nat} {v : Int} (hn : 0 < n)
    (hlo : -(2 ^ (n - 1) : Int) ≤ v) (hhi : v < (2 ^ (n - 1) : Int)) :
    (v % (2 ^ n : Int)).toNat < 2 ^ n
    ∧ ((if (v % (2 ^ n : Int)).toNat < 2 ^ (n - 1) then ((v % (2 ^ n : Int)).toNat : Int)
        else ((v % (2 ^ n : Int)).toNat : Int) - 2 ^ n) = v) := by
  have hsplit : (2 : Int) ^ n = 2 ^ (n - 1) * 2 := by
    conv_lhs => rw [show n = (n - 1) + 1 by omega]
    rw [pow_succ]
  have hppos : (0 : Int) < 2 ^ (n - 1) := by positivity
  have hc : ((2 ^ n : Nat) : Int) = 2 ^ n := by push_cast; rfl
  have hc2 : ((2 ^ (n - 1) : Nat) : Int) = 2 ^ (n - 1) := by push_cast; rfl
  by_cases hv : 0 ≤ v
  · have hmod : v % (2 ^ n : Int) = v := Int.emod_eq_of_lt hv (by omega)
    rw [hmod]
    have htn : ((v.toNat : Int)) = v := Int.toNat_of_nonneg hv
    constructor
    · omega
    · rw [if_pos (by omega)]
      exact htn
  · push_neg at hv
    have hmod : v % (2 ^ n : Int) = v + 2 ^ n := by
      have hself : (v + 2 ^ n * 1) % (2 ^ n : Int) = v % 2 ^ n := Int.add_mul_emod_self_left v (2 ^ n) 1
      rw [mul_one] at hself
      rw [← hself]
      exact Int.emod_eq_of_lt (by omega) (by omega)
    rw [hmod]
    have h0 : (0 : Int) ≤ v + 2 ^ n := by omega
    have htn : (((v + 2 ^ n).toNat : Int)) = v + 2 ^ n := Int.toNat_of_nonneg h0
    constructor
    · omega
    · rw [if_neg (by omega)]
      omega

/-- `List.all` of a byte-bound check gives the pointwise bound. -/
theorem all_bytes_lt {l : List Nat} (h : l.all (fun b => decide (b < 256)) = true) :
    ∀ b ∈ l, b < 256 :=
  fun b hb => of_decide_eq_true (List.all_eq_true.mp h b hb)

/-! ### The chain-reading simulation

A `ChainState` represents a remaining stream when its unconsumed bits and
references are exactly those of some stream prefix `p` and its continuation
slot holds the chained remainder `r`.  Reading replays the stream: each
reader consumes the stream's head item and preserves the invariant,
descending into the continuation cell exactly at the prefix/remainder
boundary. -/

def represents (items : List Item) (st : ChainState) : Prop :=
  ∃ p r, items = p ++ r ∧ st = ⟨itemsBits p, itemsRefs p, chainOf r⟩

theorem chainOf_ne_nil {r : List Item} (h : r ≠ []) :
    chainOf r = some (chunkItems r) := by
  cases r with
  | nil => exact absurd rfl h
  | cons it rest => rfl

/-- Opening the chained form of any stream yields a state representing
it. -/
theorem enter_chunkItems (items : List Item) :
    ∃ st, enter (chunkItems items) = some st ∧ represents items st := by
  have happ := chunkSplit_append items 1022 3
  rw [chunkItems_eq]
  by_cases hr : (chunkSplit items 1022 3).2 = []
  · rw [if_pos (by rw [hr]; rfl)]
    refine ⟨⟨itemsBits (chunkSplit items 1022 3).1, itemsRefs (chunkSplit items 1022 3).1,
      none⟩, rfl, (chunkSplit items 1022 3).1, (chunkSplit items 1022 3).2, happ.symm, ?_⟩
    rw [hr]
    rfl
  · rw [if_neg (by intro h0; exact hr (List.isEmpty_iff.mp h0))]
    exact ⟨⟨itemsBits (chunkSplit items 1022 3).1, itemsRefs (chunkSplit items 1022 3).1,
      some (chunkItems (chunkSplit items 1022 3).2)⟩, rfl,
      (chunkSplit items 1022 3).1, (chunkSplit items 1022 3).2, happ.symm,
      by rw [chainOf_ne_nil hr]⟩

/-- Reading a bit replays the stream's head bit item, descending into the
continuation cell exactly when the current cell is consumed. -/
theorem readBitC_repr {b : Bool} {S : List Item} {st : ChainState}
    (h : represents (Item.bit b :: S) st) :
    ∃ st', readBitC st = some (b, st') ∧ represents S st' := by
  obtain ⟨p, r, hitems, hst⟩ := h
  subst hst
  cases p with
  | cons it p =>
    cases it with
    | bit b2 =>
      rw [List.cons_append] at hitems
      injection hitems with h1 h2
      injection h1 with hb
      subst hb
      exact ⟨⟨itemsBits p, itemsRefs p, chainOf r⟩, rfl, p, r, h2, rfl⟩
    | child c =>
      rw [List.cons_append] at hitems
      injection hitems with h1 h2
      exact Item.noConfusion h1
  | nil =>
    rw [List.nil_append] at hitems
    subst hitems
    by_cases hr2 : (chunkSplit S 1021 3).2 = []
    · have hX : ((chunkSplit (Item.bit b :: S) 1022 3).2.isEmpty = true) := by
        show (chunkSplit S 1021 3).2.isEmpty = true
        rw [hr2]
        rfl
      have hcell : chunkItems (Item.bit b :: S)
          = Cell.mk (false :: b :: itemsBits (chunkSplit S 1021 3).1)
              (itemsRefs (chunkSplit S 1021 3).1) := by
        rw [chunkItems_eq, if_pos hX]
        rfl
      refine ⟨⟨itemsBits (chunkSplit S 1021 3).1, itemsRefs (chunkSplit S 1021 3).1,
        none⟩, ?_, ?_⟩
      · show readBitC ⟨[], [], some (chunkItems (Item.bit b :: S))⟩ = _
        rw [hcell]
        rfl
      · refine ⟨(chunkSplit S 1021 3).1, (chunkSplit S 1021 3).2,
          (chunkSplit_append S 1021 3).symm, ?_⟩
        rw [hr2]
        rfl
    · have hX : ¬((chunkSplit (Item.bit b :: S) 1022 3).2.isEmpty = true) := by
        show ¬((chunkSplit S 1021 3).2.isEmpty = true)
        intro h0
        exact hr2 (List.isEmpty_iff.mp h0)
      have hcell : chunkItems (Item.bit b :: S)
          = Cell.mk (true :: b :: itemsBits (chunkSplit S 1021 3).1)
              (chunkItems (chunkSplit S 1021 3).2 :: itemsRefs (chunkSplit S 1021 3).1) := by
        rw [chunkItems_eq, if_neg hX]
        rfl
      refine ⟨⟨itemsBits (chunkSplit S 1021 3).1, itemsRefs (chunkSplit S 1021 3).1,
        some (chunkItems (chunkSplit S 1021 3).2)⟩, ?_, ?_⟩
      · show readBitC ⟨[], [], some (chunkItems (Item.bit b :: S))⟩ = _
        rw [hcell]
        rfl
      · exact ⟨(chunkSplit S 1021 3).1, (chunkSplit S 1021 3).2,
          (chunkSplit_append S 1021 3).symm, by rw [chainOf_ne_nil hr2]⟩

/-- Reading a reference replays the stream's head reference item, descending
into the continuation cell exactly when the current cell is consumed. -/
theorem readRefC_repr {c : Cell} {S : List Item} {st : ChainState}
    (h : represents (Item.child c :: S) st) :
    ∃ st', readRefC st = some (c, st') ∧ represents S st' := by
  obtain ⟨p, r, hitems, hst⟩ := h
  subst hst
  cases p with
  | cons it p =>
    cases it with
    | child c2 =>
      rw [List.cons_append] at hitems
      injection hitems with h1 h2
      injection h1 with hc
      subst hc
      exact ⟨⟨itemsBits p, itemsRefs p, chainOf r⟩, rfl, p, r, h2, rfl⟩
    | bit b2 =>
      rw [List.cons_append] at hitems
      injection hitems with h1 h2
      exact Item.noConfusion h1
  | nil =>
    rw [List.nil_append] at hitems
    subst hitems
    by_cases hr2 : (chunkSplit S 1022 2).2 = []
    · have hX : ((chunkSplit (Item.child c :: S) 1022 3).2.isEmpty = true) := by
        show (chunkSplit S 1022 2).2.isEmpty = true
        rw [hr2]
        rfl
      have hcell : chunkItems (Item.child c :: S)
          = Cell.mk (false :: itemsBits (chunkSplit S 1022 2).1)
              (c :: itemsRefs (chunkSplit S 1022 2).1) := by
        rw [chunkItems_eq, if_pos hX]
        rfl
      refine ⟨⟨itemsBits (chunkSplit S 1022 2).1, itemsRefs (chunkSplit S 1022 2).1,
        none⟩, ?_, ?_⟩
      · show readRefC ⟨[], [], some (chunkItems (Item.child c :: S))⟩ = _
        rw [hcell]
        rfl
      · refine ⟨(chunkSplit S 1022 2).1, (chunkSplit S 1022 2).2,
          (chunkSplit_append S 1022 2).symm, ?_⟩
        rw [hr2]
        rfl
    · have hX : ¬((chunkSplit (Item.child c :: S) 1022 3).2.isEmpty = true) := by
        show ¬((chunkSplit S 1022 2).2.isEmpty = true)
        intro h0
        exact hr2 (List.isEmpty_iff.mp h0)
      have hcell : chunkItems (Item.child c :: S)
          = Cell.mk (true :: itemsBits (chunkSplit S 1022 2).1)
              (chunkItems (chunkSplit S 1022 2).2
                :: c :: itemsRefs (chunkSplit S 1022 2).1) := by
        rw [chunkItems_eq, if_neg hX]
        rfl
      refine ⟨⟨itemsBits (chunkSplit S 1022 2).1, itemsRefs (chunkSplit S 1022 2).1,
        some (chunkItems (chunkSplit S 1022 2).2)⟩, ?_, ?_⟩
      · show readRefC ⟨[], [], some (chunkItems (Item.child c :: S))⟩ = _
        rw [hcell]
        rfl
      · exact ⟨(chunkSplit S 1022 2).1, (chunkSplit S 1022 2).2,
          (chunkSplit_append S 1022 2).symm, by rw [chainOf_ne_nil hr2]⟩

theorem bitsItems_append (a b : List Bool) :
    bitsItems (a ++ b) = bitsItems a ++ bitsItems b := by
  simp [bitsItems]

/-- Reading a bit string replays its bit items and yields its value. -/
theorem readBitsC_repr : ∀ (bs : List Bool) {S : List Item} {st : ChainState},
    represents (bitsItems bs ++ S) st →
    ∃ st', readBitsC bs.length st = some (bitsToNat bs, st') ∧ represents S st' := by
  intro bs
  induction bs with
  | nil =>
    intro S st h
    exact ⟨st, rfl, h⟩
  | cons b bs ih =>
    intro S st h
    have h' : represents (Item.bit b :: (bitsItems bs ++ S)) st := h
    obtain ⟨st1, hr1, hrep1⟩ := readBitC_repr h'
    obtain ⟨st2, hr2, hrep2⟩ := ih hrep1
    refine ⟨st2, ?_, hrep2⟩
    show readBitsC (bs.length + 1) st = some (bitsToNat (b :: bs), st2)
    simp only [readBitsC, hr1, hr2, bitsToNat]

/-- Reading `w` bits right after the `w`-bit encoding of `v` yields `v`. -/
theorem readBitsC_encode {w v : Nat} (hv : v < 2 ^ w) {S : List Item} {st : ChainState}
    (h : represents (bitsItems (natToBits w v) ++ S) st) :
    ∃ st', readBitsC w st = some (v, st') ∧ represents S st' := by
  obtain ⟨st', hr, hrep⟩ := readBitsC_repr (natToBits w v) h
  rw [natToBits_length, bitsToNat_natToBits hv] at hr
  exact ⟨st', hr, hrep⟩

/-- Reading `n` bytes right after the encoding of an `n`-byte list yields
the list. -/
theorem readBytesC_encode : ∀ (l : List Nat), (∀ b ∈ l, b < 256) →
    ∀ {S : List Item} {st : ChainState},
    represents (bitsItems (encodeBytes l) ++ S) st →
    ∃ st', readBytesC l.length st = some (l, st') ∧ represents S st' := by
  intro l
  induction l with
  | nil =>
    intro _ S st h
    exact ⟨st, rfl, h⟩
  | cons b bs ih =>
    intro hb S st h
    have h' : represents (bitsItems (natToBits 8 b)
        ++ (bitsItems (encodeBytes bs) ++ S)) st := by
      rw [show encodeBytes (b :: bs) = natToBits 8 b ++ encodeBytes bs from rfl,
        bitsItems_append, List.append_assoc] at h
      exact h
    obtain ⟨st1, hr1, hrep1⟩ := readBitsC_encode (hb b (List.mem_cons_self b bs)) h'
    obtain ⟨st2, hr2, hrep2⟩ := ih (fun x hx => hb x (List.mem_cons_of_mem b hx)) hrep1
    refine ⟨st2, ?_, hrep2⟩
    show readBytesC (bs.length + 1) st = some (b :: bs, st2)
    simp only [readBytesC, hr1, hr2]

/-! Unfolding equations for the structural codec functions (by `rfl`) and
the well-founded decoder (via `eq_def`), used to drive the round-trip
proof. -/

theorem encodeValue_bool (b : Bool) :
    encodeValue ParamType.bool (TokenValue.bool b) = [Item.bit b] := rfl

theorem encodeValue_int (n : Nat) (v : Int) :
    encodeValue (ParamType.int n) (TokenValue.int v)
      = bitsItems (natToBits n (v % (2 ^ n : Int)).toNat) := rfl

theorem encodeValue_uint (n v : Nat) :
    encodeValue (ParamType.uint n) (TokenValue.uint v) = bitsItems (natToBits n v) := rfl

theorem encodeValue_array (t : ParamType) (es : TokenValues) :
    encodeValue (ParamType.array t) (TokenValue.array es)
      = bitsItems (natToBits 32 es.length)
          ++ [Item.child (chunkItems (encodeValues t es))] := rfl

theorem encodeValue_fixedarray (t : ParamType) (n : Nat) (es : TokenValues) :
    encodeValue (ParamType.fixedarray t n) (TokenValue.array es)
      = [Item.child (chunkItems (encodeValues t es))] := rfl

theorem encodeValue_map (k v : ParamType) (ps : TokenPairs) :
    encodeValue (ParamType.map k v) (TokenValue.map ps)
      = bitsItems (natToBits 32 ps.length)
          ++ [Item.child (chunkItems (encodePairs k v ps))] := rfl

theorem encodeValue_tuple (comps : List (String × ParamType)) (fs : NamedTokens) :
    encodeValue (ParamType.tuple comps) (TokenValue.tuple fs) = encodeNamed comps fs := rfl

theorem encodeValue_cell (c : Cell) :
    encodeValue ParamType.cell (TokenValue.cell c) = [Item.child c] := rfl

theorem encodeValue_address (a : Nat) :
    encodeValue ParamType.address (TokenValue.address a)
      = bitsItems (natToBits 267 a) := rfl

theorem encodeValue_token (a : Nat) :
    encodeValue ParamType.token (TokenValue.token a) = bitsItems (natToBits 128 a) := rfl

theorem encodeValue_bytes (l : List Nat) :
    encodeValue ParamType.bytes (TokenValue.bytes l)
      = [Item.child (chunkItems (bitsItems (natToBits 32 l.length ++ encodeBytes l)))]
    := rfl

theorem encodeValue_fixedbytes (n : Nat) (l : List Nat) :
    encodeValue (ParamType.fixedbytes n) (TokenValue.bytes l)
      = [Item.child (chunkItems (bitsItems (encodeBytes l)))] := rfl

theorem encodeValue_time (v : Nat) :
    encodeValue ParamType.time (TokenValue.time v) = bitsItems (natToBits 64 v) := rfl

theorem encodeValue_expire (v : Nat) :
    encodeValue ParamType.expire (TokenValue.expire v) = bitsItems (natToBits 32 v) := rfl

theorem encodeValue_pubkey_none :
    encodeValue ParamType.publicKey (TokenValue.pubkey none) = [Item.bit false] := rfl

theorem encodeValue_pubkey_some (k : Nat) :
    encodeValue ParamType.publicKey (TokenValue.pubkey (some k))
      = Item.bit true :: bitsItems (natToBits 256 k) := rfl

theorem encodeValue_string (l : List Nat) :
    encodeValue ParamType.string (TokenValue.string l)
      = [Item.child (chunkItems (bitsItems (natToBits 32 l.length ++ encodeBytes l)))]
    := rfl

theorem encodeValue_optionalNone (t : ParamType) :
    encodeValue (ParamType.optional t) TokenValue.optionalNone = [Item.bit false] := rfl

theorem encodeValue_optionalSome (t : ParamType) (v : TokenValue) :
    encodeValue (ParamType.optional t) (TokenValue.optionalSome v)
      = Item.bit true :: encodeValue t v := rfl

theorem encodeValue_ref (t : ParamType) (v : TokenValue) :
    encodeValue (ParamType.ref t) (TokenValue.ref v)
      = [Item.child (chunkItems (encodeValue t v))] := rfl

theorem encodeValues_nil (t : ParamType) : encodeValues t TokenValues.nil = [] := rfl

theorem encodeValues_cons (t : ParamType) (v : TokenValue) (vs : TokenValues) :
    encodeValues t (TokenValues.cons v vs)
      = encodeValue t v ++ encodeValues t vs := rfl

theorem encodePairs_nil (k v : ParamType) : encodePairs k v TokenPairs.nil = [] := rfl

theorem encodePairs_cons (k v : ParamType) (kv vv : TokenValue) (tl : TokenPairs) :
    encodePairs k v (TokenPairs.cons kv vv tl)
      = encodeValue k kv ++ encodeValue v vv ++ encodePairs k v tl := rfl

theorem encodeNamed_nil : encodeNamed [] NamedTokens.nil = [] := rfl

theorem encodeNamed_cons (cn : String) (ct : ParamType) (rest : List (String × ParamType))
    (nm : String) (v : TokenValue) (vs : NamedTokens) :
    encodeNamed ((cn, ct) :: rest) (NamedTokens.cons nm v vs)
      = encodeValue ct v ++ encodeNamed rest vs := rfl

theorem decodeValue_bool (st : ChainState) :
    decodeValue ParamType.bool st
      = match readBitC st with
        | none => none
        | some (b, st1) => some (TokenValue.bool b, st1) := by
  rw [decodeValue.eq_def]

theorem decodeValue_int (n : Nat) (st : ChainState) :
    decodeValue (ParamType.int n) st
      = match readBitsC n st with
        | none => none
        | some (u, st1) =>
          some (TokenValue.int (if u < 2 ^ (n - 1) then (u : Int) else (u : Int) - 2 ^ n),
            st1) := by
  rw [decodeValue.eq_def]

theorem decodeValue_uint (n : Nat) (st : ChainState) :
    decodeValue (ParamType.uint n) st
      = match readBitsC n st with
        | none => none
        | some (u, st1) => some (TokenValue.uint u, st1) := by
  rw [decodeValue.eq_def]

theorem decodeValue_array (t : ParamType) (st : ChainState) :
    decodeValue (ParamType.array t) st
      = match readBitsC 32 st with
        | none => none
        | some (len, st1) =>
          match readRefC st1 with
          | none => none
          | some (c, st2) =>
            match enter c with
            | none => none
            | some inner =>
              match decodeValues t len inner with
              | none => none
              | some (es, _) => some (TokenValue.array es, st2) := by
  rw [decodeValue.eq_def]

theorem decodeValue_fixedarray (t : ParamType) (n : Nat) (st : ChainState) :
    decodeValue (ParamType.fixedarray t n) st
      = match readRefC st with
        | none => none
        | some (c, st1) =>
          match enter c with
          | none => none
          | some inner =>
            match decodeValues t n inner with
            | none => none
            | some (es, _) => some (TokenValue.array es, st1) := by
  rw [decodeValue.eq_def]

theorem decodeValue_map (k v : ParamType) (st : ChainState) :
    decodeValue (ParamType.map k v) st
      = match readBitsC 32 st with
        | none => none
        | some (len, st1) =>
          match readRefC st1 with
          | none => none
          | some (c, st2) =>
            match enter c with
            | none => none
            | some inner =>
              match decodePairs k v len inner with
              | none => none
              | some (ps, _) => some (TokenValue.map ps, st2) := by
  rw [decodeValue.eq_def]

theorem decodeValue_tuple (comps : List (String × ParamType)) (st : ChainState) :
    decodeValue (ParamType.tuple comps) st
      = match decodeNamed comps st with
        | none => none
        | some (fs, st1) => some (TokenValue.tuple fs, st1) := by
  rw [decodeValue.eq_def]

theorem decodeValue_cell (st : ChainState) :
    decodeValue ParamType.cell st
      = match readRefC st with
        | none => none
        | some (c, st1) => some (TokenValue.cell c, st1) := by
  rw [decodeValue.eq_def]

theorem decodeValue_address (st : ChainState) :
    decodeValue ParamType.address st
      = match readBitsC 267 st with
        | none => none
        | some (a, st1) => some (TokenValue.address a, st1) := by
  rw [decodeValue.eq_def]

theorem decodeValue_token (st : ChainState) :
    decodeValue ParamType.token st
      = match readBitsC 128 st with
        | none => none
        | some (a, st1) => some (TokenValue.token a, st1) := by
  rw [decodeValue.eq_def]

theorem decodeValue_bytes (st : ChainState) :
    decodeValue ParamType.bytes st
      = match readRefC st with
        | none => none
        | some (c, st1) =>
          match enter c with
          | none => none
          | some inner =>
            match readBitsC 32 inner with
            | none => none
            | some (len, inner1) =>
              match readBytesC len inner1 with
              | none => none
              | some (l, _) => some (TokenValue.bytes l, st1) := by
  rw [decodeValue.eq_def]

theorem decodeValue_fixedbytes (n : Nat) (st : ChainState) :
    decodeValue (ParamType.fixedbytes n) st
      = match readRefC st with
        | none => none
        | some (c, st1) =>
          match enter c with
          | none => none
          | some inner =>
            match readBytesC n inner with
            | none => none
            | some (l, _) => some (TokenValue.bytes l, st1) := by
  rw [decodeValue.eq_def]

theorem decodeValue_time (st : ChainState) :
    decodeValue ParamType.time st
      = match readBitsC 64 st with
        | none => none
        | some (v, st1) => some (TokenValue.time v, st1) := by
  rw [decodeValue.eq_def]

theorem decodeValue_expire (st : ChainState) :
    decodeValue ParamType.expire st
      = match readBitsC 32 st with
        | none => none
        | some (v, st1) => some (TokenValue.expire v, st1) := by
  rw [decodeValue.eq_def]

theorem decodeValue_publicKey (st : ChainState) :
    decodeValue ParamType.publicKey st
      = match readBitC st with
        | none => none
        | some (false, st1) => some (TokenValue.pubkey none, st1)
        | some (true, st1) =>
          match readBitsC 256 st1 with
          | none => none
          | some (k, st2) => some (TokenValue.pubkey (some k), st2) := by
  rw [decodeValue.eq_def]

theorem decodeValue_string (st : ChainState) :
    decodeValue ParamType.string st
      = match readRefC st with
        | none => none
        | some (c, st1) =>
          match enter c with
          | none => none
          | some inner =>
            match readBitsC 32 inner with
            | none => none
            | some (len, inner1) =>
              match readBytesC len inner1 with
              | none => none
              | some (l, _) => some (TokenValue.string l, st1) := by
  rw [decodeValue.eq_def]

theorem decodeValue_optional (t : ParamType) (st : ChainState) :
    decodeValue (ParamType.optional t) st
      = match readBitC st with
        | none => none
        | some (false, st1) => some (TokenValue.optionalNone, st1)
        | some (true, st1) =>
          match decodeValue t st1 with
          | none => none
          | some (v, st2) => some (TokenValue.optionalSome v, st2) := by
  rw [decodeValue.eq_def]

theorem decodeValue_ref (t : ParamType) (st : ChainState) :
    decodeValue (ParamType.ref t) st
      = match readRefC st with
        | none => none
        | some (c, st1) =>
          match enter c with
          | none => none
          | some inner =>
            match decodeValue t inner with
            | none => none
            | some (v, _) => some (TokenValue.ref v, st1) := by
  rw [decodeValue.eq_def]

theorem decodeValues_zero (t : ParamType) (st : ChainState) :
    decodeValues t 0 st = some (TokenValues.nil, st) := by
  rw [decodeValues.eq_def]

theorem decodeValues_succ (t : ParamType) (n : Nat) (st : ChainState) :
    decodeValues t (n + 1) st
      = match decodeValue t st with
        | none => none
        | some (v, st1) =>
          match decodeValues t n st1 with
          | none => none
          | some (vs, st2) => some (TokenValues.cons v vs, st2) := by
  rw [decodeValues.eq_def]

theorem decodePairs_zero (k v : ParamType) (st : ChainState) :
    decodePairs k v 0 st = some (TokenPairs.nil, st) := by
  rw [decodePairs.eq_def]

theorem decodePairs_succ (k v : ParamType) (n : Nat) (st : ChainState) :
    decodePairs k v (n + 1) st
      = match decodeValue k st with
        | none => none
        | some (kv, st1) =>
          match decodeValue v st1 with
          | none => none
          | some (vv, st2) =>
            match decodePairs k v n st2 with
            | none => none
            | some (tl, st3) => some (TokenPairs.cons kv vv tl, st3) := by
  rw [decodePairs.eq_def]

theorem decodeNamed_nil (st : ChainState) :
    decodeNamed [] st = some (NamedTokens.nil, st) := by
  rw [decodeNamed.eq_def]

theorem decodeNamed_cons (nm : String) (t : ParamType) (rest : List (String × ParamType))
    (st : ChainState) :
    decodeNamed ((nm, t) :: rest) st
      = match decodeValue t st with
        | none => none
        | some (v, st1) =>
          match decodeNamed rest st1 with
          | none => none
          | some (vs, st2) => some (NamedTokens.cons nm v vs, st2) := by
  rw [decodeNamed.eq_def]

mutual
/-- Round-trip at a single value: decanting the stream state right after
the encoding of a conforming value returns the value and a state
representing the trailing stream. -/
theorem roundValue : ∀ (v : TokenValue) (t : ParamType), conforms t v = true →
    ∀ (S : List Item) (st : ChainState), represents (encodeValue t v ++ S) st →
    ∃ st', decodeValue t st = some (v, st') ∧ represents S st'
  | TokenValue.bool b, t, h, S, st, hrep => by
    cases t
    case bool =>
      rw [encodeValue_bool] at hrep
      obtain ⟨st', hr, hrep'⟩ := readBitC_repr hrep
      refine ⟨st', ?_, hrep'⟩
      simp only [decodeValue_bool, hr]
    all_goals exact Bool.noConfusion h
  | TokenValue.int v, t, h, S, st, hrep => by
    cases t
    case int n =>
      replace h : (decide (0 < n) && decide (-(2 ^ (n - 1) : Int) ≤ v)
          && decide (v < (2 ^ (n - 1) : Int))) = true := h
      simp only [Bool.and_eq_true, decide_eq_true_eq] at h
      obtain ⟨⟨hn, hlo⟩, hhi⟩ := h
      have hr := int_roundtrip hn hlo hhi
      rw [encodeValue_int] at hrep
      obtain ⟨st', hre, hrep'⟩ := readBitsC_encode hr.1 hrep
      refine ⟨st', ?_, hrep'⟩
      simp only [decodeValue_int, hre, hr.2]
    all_goals exact Bool.noConfusion h
  | TokenValue.uint v, t, h, S, st, hrep => by
    cases t
    case uint n =>
      replace h : decide (v < 2 ^ n) = true := h
      replace h := of_decide_eq_true h
      rw [encodeValue_uint] at hrep
      obtain ⟨st', hre, hrep'⟩ := readBitsC_encode h hrep
      refine ⟨st', ?_, hrep'⟩
      simp only [decodeValue_uint, hre]
    all_goals exact Bool.noConfusion h
  | TokenValue.array es, t, h, S, st, hrep => by
    cases t
    case array t =>
      replace h : (decide (es.length < 2 ^ 32) && conformsValues t es) = true := h
      simp only [Bool.and_eq_true, decide_eq_true_eq] at h
      obtain ⟨h32, hconf⟩ := h
      rw [encodeValue_array] at hrep
      simp only [List.append_assoc] at hrep
      obtain ⟨st1, hr1, hrep1⟩ := readBitsC_encode h32 hrep
      obtain ⟨st2, hr2, hrep2⟩ := readRefC_repr hrep1
      obtain ⟨inner, hen, hreni⟩ := enter_chunkItems (encodeValues t es)
      have hreni2 : represents (encodeValues t es ++ []) inner := by
        rw [List.append_nil]
        exact hreni
      obtain ⟨inner2, hdec, _⟩ := roundValues es t hconf [] inner hreni2
      refine ⟨st2, ?_, hrep2⟩
      simp only [decodeValue_array, hr1, hr2, hen, hdec]
    case fixedarray t n =>
      replace h : (decide (es.length = n) && conformsValues t es) = true := h
      simp only [Bool.and_eq_true, decide_eq_true_eq] at h
      obtain ⟨hlen, hconf⟩ := h
      subst hlen
      rw [encodeValue_fixedarray] at hrep
      obtain ⟨st1, hr1, hrep1⟩ := readRefC_repr hrep
      obtain ⟨inner, hen, hreni⟩ := enter_chunkItems (encodeValues t es)
      have hreni2 : represents (encodeValues t es ++ []) inner := by
        rw [List.append_nil]
        exact hreni
      obtain ⟨inner2, hdec, _⟩ := roundValues es t hconf [] inner hreni2
      refine ⟨st1, ?_, hrep1⟩
      simp only [decodeValue_fixedarray, hr1, hen, hdec]
    all_goals exact Bool.noConfusion h
  | TokenValue.map ps, t, h, S, st, hrep => by
    cases t
    case map k v =>
      replace h : (decide (ps.length < 2 ^ 32) && conformsPairs k v ps) = true := h
      simp only [Bool.and_eq_true, decide_eq_true_eq] at h
      obtain ⟨h32, hconf⟩ := h
      rw [encodeValue_map] at hrep
      simp only [List.append_assoc] at hrep
      obtain ⟨st1, hr1, hrep1⟩ := readBitsC_encode h32 hrep
      obtain ⟨st2, hr2, hrep2⟩ := readRefC_repr hrep1
      obtain ⟨inner, hen, hreni⟩ := enter_chunkItems (encodePairs k v ps)
      have hreni2 : represents (encodePairs k v ps ++ []) inner := by
        rw [List.append_nil]
        exact hreni
      obtain ⟨inner2, hdec, _⟩ := roundPairs ps k v hconf [] inner hreni2
      refine ⟨st2, ?_, hrep2⟩
      simp only [decodeValue_map, hr1, hr2, hen, hdec]
    all_goals exact Bool.noConfusion h
  | TokenValue.tuple fs, t, h, S, st, hrep => by
    cases t
    case tuple comps =>
      replace h : conformsNamed comps fs = true := h
      rw [encodeValue_tuple] at hrep
      obtain ⟨st', hdec, hrep'⟩ := roundNamed fs comps h S st hrep
      refine ⟨st', ?_, hrep'⟩
      simp only [decodeValue_tuple, hdec]
    all_goals exact Bool.noConfusion h
  | TokenValue.cell c, t, h, S, st, hrep => by
    cases t
    case cell =>
      rw [encodeValue_cell] at hrep
      obtain ⟨st', hr, hrep'⟩ := readRefC_repr hrep
      refine ⟨st', ?_, hrep'⟩
      simp only [decodeValue_cell, hr]
    all_goals exact Bool.noConfusion h
  | TokenValue.address a, t, h, S, st, hrep => by
    cases t
    case address =>
      replace h : decide (a < 2 ^ 267) = true := h
      replace h := of_decide_eq_true h
      rw [encodeValue_address] at hrep
      obtain ⟨st', hre, hrep'⟩ := readBitsC_encode h hrep
      refine ⟨st', ?_, hrep'⟩
      simp only [decodeValue_address, hre]
    all_goals exact Bool.noConfusion h
  | TokenValue.token a, t, h, S, st, hrep => by
    cases t
    case token =>
      replace h : decide (a < 2 ^ 128) = true := h
      replace h := of_decide_eq_true h
      rw [encodeValue_token] at hrep
      obtain ⟨st', hre, hrep'⟩ := readBitsC_encode h hrep
      refine ⟨st', ?_, hrep'⟩
      simp only [decodeValue_token, hre]
    all_goals exact Bool.noConfusion h
  | TokenValue.bytes l, t, h, S, st, hrep => by
    cases t
    case bytes =>
      replace h : (decide (l.length < 2 ^ 32)
          && l.all (fun b => decide (b < 256))) = true := h
      simp only [Bool.and_eq_true] at h
      obtain ⟨h32, hall⟩ := h
      replace h32 := of_decide_eq_true h32
      rw [encodeValue_bytes] at hrep
      obtain ⟨st1, hr1, hrep1⟩ := readRefC_repr hrep
      obtain ⟨inner, hen, hreni⟩ :=
        enter_chunkItems (bitsItems (natToBits 32 l.length ++ encodeBytes l))
      have hreni2 : represents (bitsItems (natToBits 32 l.length)
          ++ (bitsItems (encodeBytes l) ++ [])) inner := by
        rw [List.append_nil, ← bitsItems_append]
        exact hreni
      obtain ⟨inner1, hrl, hrepl⟩ := readBitsC_encode h32 hreni2
      obtain ⟨inner2, hrb, _⟩ := readBytesC_encode l (all_bytes_lt hall) hrepl
      refine ⟨st1, ?_, hrep1⟩
      simp only [decodeValue_bytes, hr1, hen, hrl, hrb]
    case fixedbytes n =>
      replace h : (decide (l.length = n)
          && l.all (fun b => decide (b < 256))) = true := h
      simp only [Bool.and_eq_true] at h
      obtain ⟨hlen, hall⟩ := h
      replace hlen := of_decide_eq_true hlen
      subst hlen
      rw [encodeValue_fixedbytes] at hrep
      obtain ⟨st1, hr1, hrep1⟩ := readRefC_repr hrep
      obtain ⟨inner, hen, hreni⟩ := enter_chunkItems (bitsItems (encodeBytes l))
      have hreni2 : represents (bitsItems (encodeBytes l) ++ []) inner := by
        rw [List.append_nil]
        exact hreni
      obtain ⟨inner1, hrb, _⟩ := readBytesC_encode l (all_bytes_lt hall) hreni2
      refine ⟨st1, ?_, hrep1⟩
      simp only [decodeValue_fixedbytes, hr1, hen, hrb]
    all_goals exact Bool.noConfusion h
  | TokenValue.time v, t, h, S, st, hrep => by
    cases t
    case time =>
      replace h : decide (v < 2 ^ 64) = true := h
      replace h := of_decide_eq_true h
      rw [encodeValue_time] at hrep
      obtain ⟨st', hre, hrep'⟩ := readBitsC_encode h hrep
      refine ⟨st', ?_, hrep'⟩
      simp only [decodeValue_time, hre]
    all_goals exact Bool.noConfusion h
  | TokenValue.expire v, t, h, S, st, hrep => by
    cases t
    case expire =>
      replace h : decide (v < 2 ^ 32) = true := h
      replace h := of_decide_eq_true h
      rw [encodeValue_expire] at hrep
      obtain ⟨st', hre, hrep'⟩ := readBitsC_encode h hrep
      refine ⟨st', ?_, hrep'⟩
      simp only [decodeValue_expire, hre]
    all_goals exact Bool.noConfusion h
  | TokenValue.pubkey none, t, h, S, st, hrep => by
    cases t
    case publicKey =>
      rw [encodeValue_pubkey_none] at hrep
      obtain ⟨st', hr, hrep'⟩ := readBitC_repr hrep
      refine ⟨st', ?_, hrep'⟩
      simp only [decodeValue_publicKey, hr]
    all_goals exact Bool.noConfusion h
  | TokenValue.pubkey (some k), t, h, S, st, hrep => by
    cases t
    case publicKey =>
      replace h : decide (k < 2 ^ 256) = true := h
      replace h := of_decide_eq_true h
      rw [encodeValue_pubkey_some] at hrep
      obtain ⟨st1, hr1, hrep1⟩ := readBitC_repr hrep
      obtain ⟨st2, hr2, hrep2⟩ := readBitsC_encode h hrep1
      refine ⟨st2, ?_, hrep2⟩
      simp only [decodeValue_publicKey, hr1, hr2]
    all_goals exact Bool.noConfusion h
  | TokenValue.string l, t, h, S, st, hrep => by
    cases t
    case string =>
      replace h : (decide (l.length < 2 ^ 32)
          && l.all (fun b => decide (b < 256))) = true := h
      simp only [Bool.and_eq_true] at h
      obtain ⟨h32, hall⟩ := h
      replace h32 := of_decide_eq_true h32
      rw [encodeValue_string] at hrep
      obtain ⟨st1, hr1, hrep1⟩ := readRefC_repr hrep
      obtain ⟨inner, hen, hreni⟩ :=
        enter_chunkItems (bitsItems (natToBits 32 l.length ++ encodeBytes l))
      have hreni2 : represents (bitsItems (natToBits 32 l.length)
          ++ (bitsItems (encodeBytes l) ++ [])) inner := by
        rw [List.append_nil, ← bitsItems_append]
        exact hreni
      obtain ⟨inner1, hrl, hrepl⟩ := readBitsC_encode h32 hreni2
      obtain ⟨inner2, hrb, _⟩ := readBytesC_encode l (all_bytes_lt hall) hrepl
      refine ⟨st1, ?_, hrep1⟩
      simp only [decodeValue_string, hr1, hen, hrl, hrb]
    all_goals exact Bool.noConfusion h
  | TokenValue.optionalNone, t, h, S, st, hrep => by
    cases t
    case optional t =>
      rw [encodeValue_optionalNone] at hrep
      obtain ⟨st', hr, hrep'⟩ := readBitC_repr hrep
      refine ⟨st', ?_, hrep'⟩
      simp only [decodeValue_optional, hr]
    all_goals exact Bool.noConfusion h
  | TokenValue.optionalSome w, t, h, S, st, hrep => by
    cases t
    case optional t =>
      replace h : conforms t w = true := h
      rw [encodeValue_optionalSome] at hrep
      obtain ⟨st1, hr1, hrep1⟩ := readBitC_repr hrep
      obtain ⟨st2, hdec, hrep2⟩ := roundValue w t h S st1 hrep1
      refine ⟨st2, ?_, hrep2⟩
      simp only [decodeValue_optional, hr1, hdec]
    all_goals exact Bool.noConfusion h
  | TokenValue.ref w, t, h, S, st, hrep => by
    cases t
    case ref t =>
      replace h : conforms t w = true := h
      rw [encodeValue_ref] at hrep
      obtain ⟨st1, hr1, hrep1⟩ := readRefC_repr hrep
      obtain ⟨inner, hen, hreni⟩ := enter_chunkItems (encodeValue t w)
      have hreni2 : represents (encodeValue t w ++ []) inner := by
        rw [List.append_nil]
        exact hreni
      obtain ⟨inner1, hdec, _⟩ := roundValue w t h [] inner hreni2
      refine ⟨st1, ?_, hrep1⟩
      simp only [decodeValue_ref, hr1, hen, hdec]
    all_goals exact Bool.noConfusion h

/-- Round-trip for an element sequence of a single element type. -/
theorem roundValues : ∀ (vs : TokenValues) (t : ParamType),
    conformsValues t vs = true → ∀ (S : List Item) (st : ChainState),
    represents (encodeValues t vs ++ S) st →
    ∃ st', decodeValues t vs.length st = some (vs, st') ∧ represents S st'
  | TokenValues.nil, t, _, S, st, hrep => by
    refine ⟨st, ?_, hrep⟩
    show decodeValues t 0 st = some (TokenValues.nil, st)
    simp only [decodeValues_zero]
  | TokenValues.cons v vs, t, h, S, st, hrep => by
    replace h : (conforms t v && conformsValues t vs) = true := h
    simp only [Bool.and_eq_true] at h
    obtain ⟨h1, h2⟩ := h
    rw [encodeValues_cons] at hrep
    simp only [List.append_assoc] at hrep
    obtain ⟨st1, hd1, hrep1⟩ := roundValue v t h1 (encodeValues t vs ++ S) st hrep
    obtain ⟨st2, hd2, hrep2⟩ := roundValues vs t h2 S st1 hrep1
    refine ⟨st2, ?_, hrep2⟩
    show decodeValues t (vs.length + 1) st = some (TokenValues.cons v vs, st2)
    simp only [decodeValues_succ, hd1, hd2]

/-- Round-trip for a key/value pair sequence. -/
theorem roundPairs : ∀ (ps : TokenPairs) (k v : ParamType),
    conformsPairs k v ps = true → ∀ (S : List Item) (st : ChainState),
    represents (encodePairs k v ps ++ S) st →
    ∃ st', decodePairs k v ps.length st = some (ps, st') ∧ represents S st'
  | TokenPairs.nil, k, v, _, S, st, hrep => by
    refine ⟨st, ?_, hrep⟩
    show decodePairs k v 0 st = some (TokenPairs.nil, st)
    simp only [decodePairs_zero]
  | TokenPairs.cons kv vv tl, k, v, h, S, st, hrep => by
    replace h : (conforms k kv && conforms v vv && conformsPairs k v tl) = true := h
    simp only [Bool.and_eq_true] at h
    obtain ⟨⟨h1, h2⟩, h3⟩ := h
    rw [encodePairs_cons] at hrep
    simp only [List.append_assoc] at hrep
    obtain ⟨st1, hd1, hrep1⟩ :=
      roundValue kv k h1 (encodeValue v vv ++ (encodePairs k v tl ++ S)) st hrep
    obtain ⟨st2, hd2, hrep2⟩ := roundValue vv v h2 (encodePairs k v tl ++ S) st1 hrep1
    obtain ⟨st3, hd3, hrep3⟩ := roundPairs tl k v h3 S st2 hrep2
    refine ⟨st3, ?_, hrep3⟩
    show decodePairs k v (tl.length + 1) st = some (TokenPairs.cons kv vv tl, st3)
    simp only [decodePairs_succ, hd1, hd2, hd3]

/-- Round-trip for a named field sequence against its schema. -/
theorem roundNamed : ∀ (fs : NamedTokens) (comps : List (String × ParamType)),
    conformsNamed comps fs = true → ∀ (S : List Item) (st : ChainState),
    represents (encodeNamed comps fs ++ S) st →
    ∃ st', decodeNamed comps st = some (fs, st') ∧ represents S st'
  | NamedTokens.nil, comps, h, S, st, hrep => by
    cases comps with
    | nil =>
      refine ⟨st, ?_, hrep⟩
      simp only [decodeNamed_nil]
    | cons c rest => exact Bool.noConfusion h
  | NamedTokens.cons nm v vs, comps, h, S, st, hrep => by
    cases comps with
    | nil => exact Bool.noConfusion h
    | cons c rest =>
      obtain ⟨cn, ct⟩ := c
      replace h : (decide (nm = cn) && conforms ct v && conformsNamed rest vs) = true := h
      simp only [Bool.and_eq_true, decide_eq_true_eq] at h
      obtain ⟨⟨hname, h1⟩, h2⟩ := h
      subst hname
      rw [encodeNamed_cons] at hrep
      simp only [List.append_assoc] at hrep
      obtain ⟨st1, hd1, hrep1⟩ := roundValue v ct h1 (encodeNamed rest vs ++ S) st hrep
      obtain ⟨st2, hd2, hrep2⟩ := roundNamed vs rest h2 S st1 hrep1
      refine ⟨st2, ?_, hrep2⟩
      simp only [decodeNamed_cons, hd1, hd2]
end

theorem cellValid_mk (bits : List Bool) (refs : List Cell) :
    cellValid (Cell.mk bits refs)
      = (decide (bits.length ≤ 1023) && decide (refs.length ≤ 4) && cellValidAll refs) := by
  rw [cellValid.eq_def]

theorem cellValidAll_nil : cellValidAll [] = true := by
  rw [cellValidAll.eq_def]

theorem cellValidAll_cons (c : Cell) (cs : List Cell) :
    cellValidAll (c :: cs) = (cellValid c && cellValidAll cs) := by
  rw [cellValidAll.eq_def]

theorem cellValidAll_of_mem : ∀ (cs : List Cell), (∀ c ∈ cs, cellValid c = true) →
    cellValidAll cs = true := by
  intro cs
  induction cs with
  | nil => intro _; exact cellValidAll_nil
  | cons c cs ih =>
    intro hmem
    rw [cellValidAll_cons, hmem c (List.mem_cons_self c cs),
      ih (fun x hx => hmem x (List.mem_cons_of_mem c hx))]
    rfl

theorem itemsRefs_mem : ∀ (p : List Item) (c : Cell), c ∈ itemsRefs p →
    Item.child c ∈ p := by
  intro p
  induction p with
  | nil => intro c hc; exact absurd hc (List.not_mem_nil c)
  | cons it rest ih =>
    intro c hc
    cases it with
    | bit b => exact List.mem_cons_of_mem _ (ih c hc)
    | child c2 =>
      rcases List.mem_cons.mp hc with h1 | h2
      · subst h1
        exact List.mem_cons_self _ _
      · exact List.mem_cons_of_mem _ (ih c h2)

/-- The serializer's capacity discipline: every cell `chunkItems` builds
respects the 1023-bit/4-reference budget, provided the payload cells
embedded in the stream do. -/
theorem chunkItems_valid : ∀ (n : Nat) (items : List Item), items.length ≤ n →
    (∀ c, Item.child c ∈ items → cellValid c = true) →
    cellValid (chunkItems items) = true := by
  intro n
  induction n with
  | zero =>
    intro items hlen hmem
    have hnil : items = [] := List.length_eq_zero.mp (Nat.le_zero.mp hlen)
    subst hnil
    rw [chunkItems_eq,
      if_pos (show (chunkSplit ([] : List Item) 1022 3).2.isEmpty = true from rfl)]
    have h1 : itemsRefs (chunkSplit ([] : List Item) 1022 3).1 = [] := rfl
    rw [cellValid_mk, h1, cellValidAll_nil]
    rfl
  | succ n ih =>
    intro items hlen hmem
    have happ := chunkSplit_append items 1022 3
    have hb := chunkSplit_bits_le items 1022 3
    have hrf := chunkSplit_refs_le items 1022 3
    have hall : cellValidAll (itemsRefs (chunkSplit items 1022 3).1) = true := by
      apply cellValidAll_of_mem
      intro c hc
      apply hmem
      rw [← happ]
      exact List.mem_append_left _ (itemsRefs_mem _ c hc)
    rw [chunkItems_eq]
    by_cases hr : (chunkSplit items 1022 3).2 = []
    · rw [if_pos (by rw [hr]; rfl)]
      rw [cellValid_mk, hall]
      have hb1 : (false :: itemsBits (chunkSplit items 1022 3).1).length ≤ 1023 := by
        simp only [List.length_cons]
        omega
      have hb2 : (itemsRefs (chunkSplit items 1022 3).1).length ≤ 4 := by omega
      rw [decide_eq_true hb1, decide_eq_true hb2]
      rfl
    · rw [if_neg (by intro h0; exact hr (List.isEmpty_iff.mp h0))]
      have hp := chunkSplit_fst_ne_nil items 1022 3
        (by intro h0; subst h0; exact hr rfl) (by omega) (by omega)
      have hlen2 : (chunkSplit items 1022 3).1.length + (chunkSplit items 1022 3).2.length
          = items.length := by
        conv_rhs => rw [← happ]
        rw [List.length_append]
      have hppos : 0 < (chunkSplit items 1022 3).1.length := List.length_pos.mpr hp
      have hchain : cellValid (chunkItems (chunkSplit items 1022 3).2) = true := by
        apply ih _ (by omega)
        intro c hc
        apply hmem
        rw [← happ]
        exact List.mem_append_right _ hc
      rw [cellValid_mk, cellValidAll_cons, hall, hchain]
      have hb1 : (true :: itemsBits (chunkSplit items 1022 3).1).length ≤ 1023 := by
        simp only [List.length_cons]
        omega
      have hb2 : (chunkItems (chunkSplit items 1022 3).2
          :: itemsRefs (chunkSplit items 1022 3).1).length ≤ 4 := by
        simp only [List.length_cons]
        omega
      rw [decide_eq_true hb1, decide_eq_true hb2]
      rfl

/-- Modelled from the spec: nekoton_abi's `pack_into_cell` — serialize a
token list against its schema into a tree of fixed-capacity cells
(`nt_pack_into_cell`, lines 657-678, delegates here after
`parse_params_list`; the codec crate's source is not under `src/`).  The
schema-ordered item stream is cut into a bounded cell chain by
`chunkItems`. -/
def pack_into_cell (params : List (String × ParamType)) (tokens : NamedTokens) : Cell :=
  chunkItems (encodeNamed params tokens)

/-- Modelled from the spec: nekoton_abi's `unpack_from_cell`
(`nt_unpack_from_cell`, lines 681-707): decode the schema's tokens off the
cell chain in schema order; with the partial-decode flag false, unconsumed
trailing bits, references or continuation data are a decode error
(`none`). -/
def unpack_from_cell (params : List (String × ParamType)) (c : Cell)
    ( allowPartial : Bool) : Option NamedTokens :=
  match enter c with
  | none => none
  | some st =>
    match decodeNamed params st with
    | none => none
    | some (tokens, rest) =>
      if allowPartial then some tokens
      else if rest.bits.isEmpty && rest.refs.isEmpty && rest.chain.isNone then some tokens
      else none

/-- Claim C2: for every schema `S` (a params list) and every value tree `V`
conforming to `S`, unpacking the cell produced by packing `V` against `S`,
with `allowPartial = false`, yields `V` again:
`decode(encode(V,S), S, false) = V`. -/
theorem claim_c2_pack_unpack_roundtrip (params : List (String × ParamType))
    (tokens : NamedTokens) (h : conformsNamed params tokens = true) :
    unpack_from_cell params (pack_into_cell params tokens) false = some tokens := by
  unfold pack_into_cell unpack_from_cell
  obtain ⟨st, hen, hrep⟩ := enter_chunkItems (encodeNamed params tokens)
  have hrep2 : represents (encodeNamed params tokens ++ []) st := by
    rw [List.append_nil]
    exact hrep
  obtain ⟨st2, hdec, hrep3⟩ := roundNamed tokens params h [] st hrep2
  simp only [hen, hdec]
  obtain ⟨p, r, hpr, hst⟩ := hrep3
  obtain ⟨hp, hr⟩ := List.append_eq_nil.mp hpr.symm
  subst hp
  subst hr
  subst hst
  rfl

/-- Witness for C2 on the two-field schema `(a : uint8, b : bool)` with
values `a = 5`, `b = true`. -/
theorem claim_c2_witness :
    conformsNamed [("a", ParamType.uint 8), ("b", ParamType.bool)]
        (NamedTokens.cons "a" (TokenValue.uint 5)
          (NamedTokens.cons "b" (TokenValue.bool true) NamedTokens.nil)) = true
    ∧ unpack_from_cell [("a", ParamType.uint 8), ("b", ParamType.bool)]
        (pack_into_cell [("a", ParamType.uint 8), ("b", ParamType.bool)]
          (NamedTokens.cons "a" (TokenValue.uint 5)
            (NamedTokens.cons "b" (TokenValue.bool true) NamedTokens.nil)))
        false
      = some (NamedTokens.cons "a" (TokenValue.uint 5)
          (NamedTokens.cons "b" (TokenValue.bool true) NamedTokens.nil)) :=
  ⟨rfl, claim_c2_pack_unpack_roundtrip _ _ rfl⟩

theorem child_not_mem_bitsItems : ∀ (bs : List Bool) (c : Cell),
    Item.child c ∉ bitsItems bs := by
  intro bs c hmem
  rcases List.mem_map.mp hmem with ⟨b, _, hb⟩
  exact Item.noConfusion hb

mutual
/-- Every payload cell laid down by the encoder of a conforming value is
capacity-valid. -/
theorem encodeChildValid : ∀ (v : TokenValue) (t : ParamType), conforms t v = true →
    ∀ c, Item.child c ∈ encodeValue t v → cellValid c = true
  | TokenValue.bool b, t, h, c, hc => by
    cases t
    case bool =>
      rw [encodeValue_bool] at hc
      exact absurd hc (child_not_mem_bitsItems [b] c)
    all_goals exact Bool.noConfusion h
  | TokenValue.int v, t, h, c, hc => by
    cases t
    case int n =>
      rw [encodeValue_int] at hc
      exact absurd hc (child_not_mem_bitsItems _ c)
    all_goals exact Bool.noConfusion h
  | TokenValue.uint v, t, h, c, hc => by
    cases t
    case uint n =>
      rw [encodeValue_uint] at hc
      exact absurd hc (child_not_mem_bitsItems _ c)
    all_goals exact Bool.noConfusion h
  | TokenValue.array es, t, h, c, hc => by
    cases t
    case array t =>
      replace h : (decide (es.length < 2 ^ 32) && conformsValues t es) = true := h
      simp only [Bool.and_eq_true, decide_eq_true_eq] at h
      obtain ⟨h32, hconf⟩ := h
      rw [encodeValue_array] at hc
      rcases List.mem_append.mp hc with h1 | h2
      · exact absurd h1 (child_not_mem_bitsItems _ c)
      · have h3 := List.mem_singleton.mp h2
        injection h3 with h4
        subst h4
        exact chunkItems_valid (encodeValues t es).length _ le_rfl
          (fun c2 hc2 => encodeValuesChildValid es t hconf c2 hc2)
    case fixedarray t n =>
      replace h : (decide (es.length = n) && conformsValues t es) = true := h
      simp only [Bool.and_eq_true, decide_eq_true_eq] at h
      obtain ⟨hlen, hconf⟩ := h
      rw [encodeValue_fixedarray] at hc
      have h3 := List.mem_singleton.mp hc
      injection h3 with h4
      subst h4
      exact chunkItems_valid (encodeValues t es).length _ le_rfl
        (fun c2 hc2 => encodeValuesChildValid es t hconf c2 hc2)
    all_goals exact Bool.noConfusion h
  | TokenValue.map ps, t, h, c, hc => by
    cases t
    case map k v =>
      replace h : (decide (ps.length < 2 ^ 32) && conformsPairs k v ps) = true := h
      simp only [Bool.and_eq_true, decide_eq_true_eq] at h
      obtain ⟨h32, hconf⟩ := h
      rw [encodeValue_map] at hc
      rcases List.mem_append.mp hc with h1 | h2
      · exact absurd h1 (child_not_mem_bitsItems _ c)
      · have h3 := List.mem_singleton.mp h2
        injection h3 with h4
        subst h4
        exact chunkItems_valid (encodePairs k v ps).length _ le_rfl
          (fun c2 hc2 => encodePairsChildValid ps k v hconf c2 hc2)
    all_goals exact Bool.noConfusion h
  | TokenValue.tuple fs, t, h, c, hc => by
    cases t
    case tuple comps =>
      replace h : conformsNamed comps fs = true := h
      rw [encodeValue_tuple] at hc
      exact encodeNamedChildValid fs comps h c hc
    all_goals exact Bool.noConfusion h
  | TokenValue.cell c2, t, h, c, hc => by
    cases t
    case cell =>
      replace h : cellValid c2 = true := h
      rw [encodeValue_cell] at hc
      have h3 := List.mem_singleton.mp hc
      injection h3 with h4
      subst h4
      exact h
    all_goals exact Bool.noConfusion h
  | TokenValue.address a, t, h, c, hc => by
    cases t
    case address =>
      rw [encodeValue_address] at hc
      exact absurd hc (child_not_mem_bitsItems _ c)
    all_goals exact Bool.noConfusion h
  | TokenValue.token a, t, h, c, hc => by
    cases t
    case token =>
      rw [encodeValue_token] at hc
      exact absurd hc (child_not_mem_bitsItems _ c)
    all_goals exact Bool.noConfusion h
  | TokenValue.bytes l, t, h, c, hc => by
    cases t
    case bytes =>
      rw [encodeValue_bytes] at hc
      have h3 := List.mem_singleton.mp hc
      injection h3 with h4
      subst h4
      exact chunkItems_valid _ _ le_rfl
        (fun c2 hc2 => absurd hc2 (child_not_mem_bitsItems _ c2))
    case fixedbytes n =>
      rw [encodeValue_fixedbytes] at hc
      have h3 := List.mem_singleton.mp hc
      injection h3 with h4
      subst h4
      exact chunkItems_valid _ _ le_rfl
        (fun c2 hc2 => absurd hc2 (child_not_mem_bitsItems _ c2))
    all_goals exact Bool.noConfusion h
  | TokenValue.time v, t, h, c, hc => by
    cases t
    case time =>
      rw [encodeValue_time] at hc
      exact absurd hc (child_not_mem_bitsItems _ c)
    all_goals exact Bool.noConfusion h
  | TokenValue.expire v, t, h, c, hc => by
    cases t
    case expire =>
      rw [encodeValue_expire] at hc
      exact absurd hc (child_not_mem_bitsItems _ c)
    all_goals exact Bool.noConfusion h
  | TokenValue.pubkey none, t, h, c, hc => by
    cases t
    case publicKey =>
      rw [encodeValue_pubkey_none] at hc
      exact absurd hc (child_not_mem_bitsItems [false] c)
    all_goals exact Bool.noConfusion h
  | TokenValue.pubkey (some k), t, h, c, hc => by
    cases t
    case publicKey =>
      rw [encodeValue_pubkey_some] at hc
      rcases List.mem_cons.mp hc with h1 | h2
      · exact Item.noConfusion h1
      · exact absurd h2 (child_not_mem_bitsItems _ c)
    all_goals exact Bool.noConfusion h
  | TokenValue.string l, t, h, c, hc => by
    cases t
    case string =>
      rw [encodeValue_string] at hc
      have h3 := List.mem_singleton.mp hc
      injection h3 with h4
      subst h4
      exact chunkItems_valid _ _ le_rfl
        (fun c2 hc2 => absurd hc2 (child_not_mem_bitsItems _ c2))
    all_goals exact Bool.noConfusion h
  | TokenValue.optionalNone, t, h, c, hc => by
    cases t
    case optional t =>
      rw [encodeValue_optionalNone] at hc
      exact absurd hc (child_not_mem_bitsItems [false] c)
    all_goals exact Bool.noConfusion h
  | TokenValue.optionalSome w, t, h, c, hc => by
    cases t
    case optional t =>
      replace h : conforms t w = true := h
      rw [encodeValue_optionalSome] at hc
      rcases List.mem_cons.mp hc with h1 | h2
      · exact Item.noConfusion h1
      · exact encodeChildValid w t h c h2
    all_goals exact Bool.noConfusion h
  | TokenValue.ref w, t, h, c, hc => by
    cases t
    case ref t =>
      replace h : conforms t w = true := h
      rw [encodeValue_ref] at hc
      have h3 := List.mem_singleton.mp hc
      injection h3 with h4
      subst h4
      exact chunkItems_valid (encodeValue t w).length _ le_rfl
        (fun c2 hc2 => encodeChildValid w t h c2 hc2)
    all_goals exact Bool.noConfusion h

theorem encodeValuesChildValid : ∀ (vs : TokenValues) (t : ParamType),
    conformsValues t vs = true →
    ∀ c, Item.child c ∈ encodeValues t vs → cellValid c = true
  | TokenValues.nil, t, _, c, hc => absurd hc (List.not_mem_nil _)
  | TokenValues.cons v vs, t, h, c, hc => by
    replace h : (conforms t v && conformsValues t vs) = true := h
    simp only [Bool.and_eq_true] at h
    obtain ⟨h1, h2⟩ := h
    rw [encodeValues_cons] at hc
    rcases List.mem_append.mp hc with ha | hb
    · exact encodeChildValid v t h1 c ha
    · exact encodeValuesChildValid vs t h2 c hb

theorem encodePairsChildValid : ∀ (ps : TokenPairs) (k v : ParamType),
    conformsPairs k v ps = true →
    ∀ c, Item.child c ∈ encodePairs k v ps → cellValid c = true
  | TokenPairs.nil, k, v, _, c, hc => absurd hc (List.not_mem_nil _)
  | TokenPairs.cons kv vv tl, k, v, h, c, hc => by
    replace h : (conforms k kv && conforms v vv && conformsPairs k v tl) = true := h
    simp only [Bool.and_eq_true] at h
    obtain ⟨⟨h1, h2⟩, h3⟩ := h
    rw [encodePairs_cons] at hc
    rcases List.mem_append.mp hc with ha | hb
    · rcases List.mem_append.mp ha with ha1 | ha2
      · exact encodeChildValid kv k h1 c ha1
      · exact encodeChildValid vv v h2 c ha2
    · exact encodePairsChildValid tl k v h3 c hb

theorem encodeNamedChildValid : ∀ (fs : NamedTokens) (comps : List (String × ParamType)),
    conformsNamed comps fs = true →
    ∀ c, Item.child c ∈ encodeNamed comps fs → cellValid c = true
  | NamedTokens.nil, comps, h, c, hc => by
    cases comps with
    | nil => exact absurd hc (List.not_mem_nil _)
    | cons c2 rest => exact Bool.noConfusion h
  | NamedTokens.cons nm v vs, comps, h, c, hc => by
    cases comps with
    | nil => exact Bool.noConfusion h
    | cons c2 rest =>
      obtain ⟨cn, ct⟩ := c2
      replace h : (decide (nm = cn) && conforms ct v && conformsNamed rest vs) = true := h
      simp only [Bool.and_eq_true, decide_eq_true_eq] at h
      obtain ⟨⟨hname, h1⟩, h2⟩ := h
      rw [encodeNamed_cons] at hc
      rcases List.mem_append.mp hc with ha | hb
      · exact encodeChildValid v ct h1 c ha
      · exact encodeNamedChildValid vs rest h2 c hb
end

/-- The packed cell tree of a conforming token list is capacity-valid:
every node holds at most 1023 bits and 4 references. -/
theorem pack_into_cell_valid (params : List (String × ParamType))
    (tokens : NamedTokens) (h : conformsNamed params tokens = true) :
    cellValid (pack_into_cell params tokens) = true :=
  chunkItems_valid (encodeNamed params tokens).length _ le_rfl
    (fun c hc => encodeNamedChildValid tokens params h c hc)
